import Mathlib

/-
Verification development for the cozo query-compilation core.

The Rust sources embedded here are:
  * src/query/logical.rs  — negation normal form, disjunctive normal form and
    atom normalization (`InputAtom::negation_normal_form`,
    `InputAtom::do_disjunctive_normal_form`, `Disjunction`,
    `InputRuleApplyAtom::normalize`, `InputAttrTripleAtom::normalize`,
    `InputRelationApplyAtom::normalize`);
  * src/runtime/db.rs     — the running-query registry, the cleanup guard
    (`RunningQueryCleanup::drop`), `Db::run_sys_op` and the view precondition
    gate of `Db::run_query`;
  * src/parse/script/query.rs — the const-rule arm of `parse_query`.

Rust `Result` becomes `Except`, a possible panic becomes an outer `Option`
(`none` = panic), `&mut` state (the temporary-symbol generator, the registry)
becomes explicit state passing.  Supporting types that live in modules outside
the provided slice (`data/program.rs`, `data/expr.rs`, `data/symb.rs`) are
reconstructed from their uses in the slice and from the specification; each
such definition carries a comment saying so.
-/

namespace CozoProof

/-- Modelled from the spec (data/symb.rs is outside the slice): a `Symbol` is a
named variable with a source span; `TempSymbGen` produces temporary symbols
whose names (drawn from a reserved namespace that cannot collide with user
variables, modelled by a separate constructor) are determined by a counter.
Symbol equality/ordering compares the identifier and ignores the span, which
is metadata. -/
inductive Symbol where
  | named (name : String) (span : Nat)
  | temp (idx : Nat) (span : Nat)
deriving DecidableEq, Repr

/-- Span of a symbol, used by the normalizer when generating fresh symbols. -/
def Symbol.span : Symbol → Nat
  | .named _ sp => sp
  | .temp _ sp => sp

/-- Identifier equality of symbols (span-insensitive), the equality used by
the `BTreeSet` of seen variables and by `ekw == vkw` in the source. -/
def Symbol.sameVar : Symbol → Symbol → Bool
  | .named a _, .named b _ => a = b
  | .temp i _, .temp j _ => i = j
  | _, _ => false

/-- Modelled from the spec: the temporary-symbol generator
(`TempSymbGen::default()` starts at zero; `gen.next(span)` hands out the next
temporary symbol carrying the given span). -/
structure TempSymbGen where
  counter : Nat
deriving DecidableEq, Repr

/-- One step of the temporary-symbol generator. -/
def TempSymbGen.next (g : TempSymbGen) (span : Nat) : Symbol × TempSymbGen :=
  (Symbol.temp g.counter span, ⟨g.counter + 1⟩)

/-- Modelled from the spec (data/value.rs is outside the slice): a runtime
value is either a list of values or some non-list value; the claims under
verification only ever inspect the list structure, so all non-list values are
collapsed into `prim`. -/
inductive DataValue where
  | prim (tag : Nat)
  | list (elems : List DataValue)

/-- Modelled from the spec (data/expr.rs is outside the slice): the fragment
of `Expr` used by the logical normalizer — constants, variable bindings
(`Expr::Binding { var, tuple_pos }`), and the negation wrapper produced by
`Expr::negate` ("Predicates absorb negation into their boolean expression
(not p)"). -/
inductive Expr where
  | const (val : DataValue) (span : Nat)
  | binding (var : Symbol) (tuplePos : Option Nat)
  | neg (arg : Expr) (span : Nat)

/-- Embeds `Expr::negate(span)`: wrap the boolean expression in a negation. -/
def Expr.negate (e : Expr) (span : Nat) : Expr := .neg e span

/-- Span of an expression (`Expr::span()` in the source). -/
def Expr.spanOf : Expr → Nat
  | .const _ sp => sp
  | .binding v _ => v.span
  | .neg _ sp => sp

/-- Embeds `Unification` from data/program.rs (outside the slice), with the
fields the slice constructs: `binding`, `expr`, `one_many_unif`, `span`. -/
structure Unification where
  binding : Symbol
  expr : Expr
  oneManyUnif : Bool
  span : Nat

/-- Errors produced by the embedded fragment of the logical pass:
`bail!("unification not allowed in negation: ...")` and
`AttrNotFoundError`. -/
inductive CozoError where
  | negatedUnification (u : Unification)
  | attrNotFound (name : String)

/-- Embeds `Expr::partial_eval`.  Modelled from the spec: partial evaluation
of predicate expressions is performed by code outside the slice and the spec
does not constrain it; it is modelled as returning the expression unchanged.
None of the claims under verification depends on its result, only on the fact
that it returns a `Result` (and hence cannot panic). -/
def Expr.preEval (e : Expr) : Except CozoError Expr := .ok e

/-- An attribute record as stored in the catalog (only its identity matters
to the logical pass). -/
structure Attr where
  id : Nat
  name : String
deriving DecidableEq, Repr

/-- The slice of `SessionTx` the logical pass uses: `attr_by_name`.  A `none`
result models the `AttrNotFoundError` path. -/
structure SessionTx where
  attrByName : String → Option Attr

/-- Embeds `InputTerm` from data/program.rs: an argument position is a
variable or a constant. -/
inductive InputTerm where
  | var (name : Symbol)
  | const (val : DataValue) (span : Nat)

/-- Embeds `InputRuleApplyAtom` (fields used by the slice: `name`, `args`,
`span`). -/
structure InputRuleApplyAtom where
  name : String
  args : List InputTerm
  span : Nat

/-- Embeds `InputRelationApplyAtom` (fields used by the slice: `name`,
`args`, `span`). -/
structure InputRelationApplyAtom where
  name : String
  args : List InputTerm
  span : Nat

/-- Embeds `InputAttrTripleAtom` (fields used by the slice: `attr.name`
— only the attribute name is consulted, via `tx.attr_by_name` — `entity`,
`value`, `span`). -/
structure InputAttrTripleAtom where
  attr : String
  entity : InputTerm
  value : InputTerm
  span : Nat

/-- Embeds `NormalFormRuleApplyAtom`. -/
structure NormalFormRuleApplyAtom where
  name : String
  args : List Symbol
  span : Nat

/-- Embeds `NormalFormRelationApplyAtom`. -/
structure NormalFormRelationApplyAtom where
  name : String
  args : List Symbol
  span : Nat

/-- Embeds `NormalFormAttrTripleAtom`. -/
structure NormalFormAttrTripleAtom where
  attr : Attr
  entity : Symbol
  value : Symbol
  span : Nat

/-- Embeds `NormalFormAtom` from data/program.rs: the flat atoms appearing in
normalized conjunctions.  There is no conjunction, disjunction or negation
constructor, so DNF output is flat by construction. -/
inductive NormalFormAtom where
  | attrTriple (a : NormalFormAttrTripleAtom)
  | negatedAttrTriple (a : NormalFormAttrTripleAtom)
  | rule (r : NormalFormRuleApplyAtom)
  | negatedRule (r : NormalFormRuleApplyAtom)
  | relation (v : NormalFormRelationApplyAtom)
  | negatedRelation (v : NormalFormRelationApplyAtom)
  | predicate (p : Expr)
  | unification (u : Unification)

/-- Embeds `Conjunction(pub Vec<NormalFormAtom>)` from logical.rs. -/
structure Conjunction where
  atoms : List NormalFormAtom

/-- Embeds `Disjunction { inner: Vec<Conjunction> }` from logical.rs. -/
structure Disjunction where
  inner : List Conjunction

/-- Embeds `Disjunction::singlet`. -/
def Disjunction.singlet (atom : NormalFormAtom) : Disjunction :=
  ⟨[⟨[atom]⟩]⟩

/-- Embeds `Disjunction::conj`. -/
def Disjunction.conj (atoms : List NormalFormAtom) : Disjunction :=
  ⟨[⟨atoms⟩]⟩

/-- Embeds `Disjunction::conjunctive_to_disjunctive_de_morgen`: the two
nested `for` loops push, left-major, the concatenation of every conjunction
of `self` with every conjunction of `other`. -/
def Disjunction.conjunctiveToDisjunctiveDeMorgen (self other : Disjunction) :
    Disjunction :=
  let rightArgs := other.inner.map Conjunction.atoms
  ⟨self.inner.flatMap fun left => rightArgs.map fun right => ⟨left.atoms ++ right⟩⟩

/-- Embeds `InputAtom` from data/program.rs, with exactly the variants the
slice matches on. -/
inductive InputAtom where
  | attrTriple (inner : InputAttrTripleAtom)
  | rule (inner : InputRuleApplyAtom)
  | relation (inner : InputRelationApplyAtom)
  | predicate (inner : Expr)
  | unification (inner : Unification)
  | conjunction (inner : List InputAtom) (span : Nat)
  | disjunction (inner : List InputAtom) (span : Nat)
  | negation (inner : InputAtom) (span : Nat)

/-- Embeds `InputAtom::span()`: the stored span of the atom. -/
def InputAtom.span : InputAtom → Nat
  | .attrTriple a => a.span
  | .rule r => r.span
  | .relation v => v.span
  | .predicate p => p.spanOf
  | .unification u => u.span
  | .conjunction _ sp => sp
  | .disjunction _ sp => sp
  | .negation _ sp => sp

mutual

/-- Embeds `InputAtom::negation_normal_form`.  The `Negation` arm of the
source (the big inner `match *arg`) is split into the mutually recursive
`nnfUnderNegation`; the sequential `try_collect` over children becomes
`nnfList` / `nnfNegList`. -/
def InputAtom.negationNormalForm : InputAtom → Except CozoError InputAtom
  | .attrTriple a => .ok (.attrTriple a)
  | .rule r => .ok (.rule r)
  | .predicate p => .ok (.predicate p)
  | .relation v => .ok (.relation v)
  | .conjunction args span =>
    match nnfList args with
    | .error e => .error e
    | .ok ys => .ok (.conjunction ys span)
  | .disjunction args span =>
    match nnfList args with
    | .error e => .error e
    | .ok ys => .ok (.disjunction ys span)
  | .unification u => .ok (.unification u)
  | .negation arg span => nnfUnderNegation arg span

/-- Embeds the `InputAtom::Negation { inner: arg, span }` arm of
`negation_normal_form`; the first argument is `*arg` and the second the
negation's span.  Note the source quirk kept here: pushing a negation through
a `Conjunction` produces a `Disjunction` carrying the outer negation's span,
while pushing through a `Disjunction` produces a `Conjunction` carrying the
inner disjunction's own span (the pattern binding shadows `span`). -/
def nnfUnderNegation : InputAtom → Nat → Except CozoError InputAtom
  | .attrTriple a, span => .ok (.negation (.attrTriple a) span)
  | .rule r, span => .ok (.negation (.rule r) span)
  | .relation v, span => .ok (.negation (.relation v) span)
  | .predicate p, span => .ok (.predicate (p.negate span))
  | .negation inner _, _ => inner.negationNormalForm
  | .conjunction args _, span =>
    match nnfNegList args with
    | .error e => .error e
    | .ok ys => .ok (.disjunction ys span)
  | .disjunction args spanInner, _ =>
    match nnfNegList args with
    | .error e => .error e
    | .ok ys => .ok (.conjunction ys spanInner)
  | .unification u, _ => .error (.negatedUnification u)

/-- Sequential `try_collect` of `negation_normal_form` over children. -/
def nnfList : List InputAtom → Except CozoError (List InputAtom)
  | [] => .ok []
  | a :: rest =>
    match a.negationNormalForm with
    | .error e => .error e
    | .ok y =>
      match nnfList rest with
      | .error e => .error e
      | .ok ys => .ok (y :: ys)

/-- Sequential `try_collect` of `Negation { inner: a, span: a.span() }
.negation_normal_form()` over children (the De Morgan arms). -/
def nnfNegList : List InputAtom → Except CozoError (List InputAtom)
  | [] => .ok []
  | a :: rest =>
    match nnfUnderNegation a a.span with
    | .error e => .error e
    | .ok y =>
      match nnfNegList rest with
      | .error e => .error e
      | .ok ys => .ok (y :: ys)

end

/-- Embeds the argument loop shared verbatim by `InputRuleApplyAtom::normalize`
and `InputRelationApplyAtom::normalize` (the two impls contain the same loop
body; it is embedded once).  State: the remaining `args`, the `seen_variables`
set, the accumulated unifications `ret`, the accumulated output arguments
`acc`, and the symbol generator. -/
def normalizeApplyArgs :
    List InputTerm → List Symbol → List NormalFormAtom → List Symbol →
    TempSymbGen → List NormalFormAtom × List Symbol × TempSymbGen
  | [], _seen, ret, acc, g => (ret, acc, g)
  | .var kw :: rest, seen, ret, acc, g =>
    if seen.any fun s => s.sameVar kw then
      let (dup, g1) := g.next kw.span
      normalizeApplyArgs rest seen
        (ret ++ [.unification ⟨dup, .binding kw none, false, kw.span⟩])
        (acc ++ [dup]) g1
    else
      normalizeApplyArgs rest (seen ++ [kw]) ret (acc ++ [kw]) g
  | .const v sp :: rest, seen, ret, acc, g =>
    let (kw, g1) := g.next sp
    normalizeApplyArgs rest seen
      (ret ++ [.unification ⟨kw, .const v sp, false, sp⟩])
      (acc ++ [kw]) g1

/-- Embeds `InputRuleApplyAtom::normalize`: run the argument loop, then push
the (possibly negated) rule atom after the accumulated unifications. -/
def InputRuleApplyAtom.normalize (self : InputRuleApplyAtom) (isNegated : Bool)
    (g : TempSymbGen) : Disjunction × TempSymbGen :=
  let (ret, args, g1) := normalizeApplyArgs self.args [] [] [] g
  let atom : NormalFormAtom :=
    if isNegated then .negatedRule ⟨self.name, args, self.span⟩
    else .rule ⟨self.name, args, self.span⟩
  (Disjunction.conj (ret ++ [atom]), g1)

/-- Embeds `InputRelationApplyAtom::normalize` (same loop, relation atom). -/
def InputRelationApplyAtom.normalize (self : InputRelationApplyAtom)
    (isNegated : Bool) (g : TempSymbGen) : Disjunction × TempSymbGen :=
  let (ret, args, g1) := normalizeApplyArgs self.args [] [] [] g
  let atom : NormalFormAtom :=
    if isNegated then .negatedRelation ⟨self.name, args, self.span⟩
    else .relation ⟨self.name, args, self.span⟩
  (Disjunction.conj (ret ++ [atom]), g1)

/-- Embeds `InputAttrTripleAtom::normalize`, including its span quirks: in the
`(Const, Var)` case the fresh entity symbol is generated with the value
variable's span; in the `(Var, Var)` duplicate case the triple atom carries
the value variable's span while the unification carries the original span. -/
def InputAttrTripleAtom.normalize (self : InputAttrTripleAtom)
    (isNegated : Bool) (g : TempSymbGen) (tx : SessionTx) :
    Except CozoError (Disjunction × TempSymbGen) :=
  match tx.attrByName self.attr with
  | none => .error (.attrNotFound self.attr)
  | some attr =>
    let wrap : NormalFormAttrTripleAtom → NormalFormAtom := fun atom =>
      if isNegated then .negatedAttrTriple atom else .attrTriple atom
    let originalSpan := self.span
    match self.entity, self.value with
    | .const eid firstSpan, .const val secondSpan =>
      let (ekw, g1) := g.next firstSpan
      let (vkw, g2) := g1.next secondSpan
      let atom : NormalFormAttrTripleAtom := ⟨attr, ekw, vkw, originalSpan⟩
      let ue : NormalFormAtom :=
        .unification ⟨ekw, .const eid firstSpan, false, firstSpan⟩
      let uv : NormalFormAtom :=
        .unification ⟨vkw, .const val secondSpan, false, secondSpan⟩
      .ok (Disjunction.conj [ue, uv, wrap atom], g2)
    | .var ekw, .const val secondSpan =>
      let (vkw, g1) := g.next secondSpan
      let atom : NormalFormAttrTripleAtom := ⟨attr, ekw, vkw, originalSpan⟩
      let uv : NormalFormAtom :=
        .unification ⟨vkw, .const val secondSpan, false, secondSpan⟩
      .ok (Disjunction.conj [uv, wrap atom], g1)
    | .const eid firstSpan, .var vkw =>
      let (ekw, g1) := g.next vkw.span
      let atom : NormalFormAttrTripleAtom := ⟨attr, ekw, vkw, originalSpan⟩
      let ue : NormalFormAtom :=
        .unification ⟨ekw, .const eid firstSpan, false, firstSpan⟩
      .ok (Disjunction.conj [ue, wrap atom], g1)
    | .var ekw, .var vkw =>
      if ekw.sameVar vkw then
        let (dup, g1) := g.next vkw.span
        let atom : NormalFormAttrTripleAtom := ⟨attr, ekw, dup, vkw.span⟩
        .ok (Disjunction.conj
          [.unification ⟨dup, .binding vkw none, false, originalSpan⟩,
           wrap atom], g1)
      else
        .ok (Disjunction.conj [wrap ⟨attr, ekw, vkw, originalSpan⟩], g)

mutual

/-- Embeds `InputAtom::do_disjunctive_normal_form`.  The result is wrapped in
an outer `Option`: `none` models a panic — either the `.unwrap()` on the first
child of an empty `Conjunction`, or the `unreachable!()` in the `Negation`
arm.  The lazy child iterator of the `Conjunction` arm (whose `map` closure
only runs as items are pulled, so an error from an earlier child short-circuits
before later children are evaluated) becomes `dnfConjunctionFold`; the
flattening loop of the `Disjunction` arm becomes `dnfDisjunctionParts`. -/
def InputAtom.doDisjunctiveNormalForm :
    InputAtom → TempSymbGen → SessionTx →
    Option (Except CozoError (Disjunction × TempSymbGen))
  | .disjunction args _, g, tx =>
    match dnfDisjunctionParts args g tx with
    | none => none
    | some (.error e) => some (.error e)
    | some (.ok (cs, g1)) => some (.ok (⟨cs⟩, g1))
  | .conjunction args _, g, tx =>
    match args with
    | [] => none
    | first :: rest =>
      match first.doDisjunctiveNormalForm g tx with
      | none => none
      | some (.error e) => some (.error e)
      | some (.ok (d, g1)) => dnfConjunctionFold rest d g1 tx
  | .attrTriple a, g, tx =>
    match a.normalize false g tx with
    | .error e => some (.error e)
    | .ok r => some (.ok r)
  | .rule r, g, _ => some (.ok (r.normalize false g))
  | .relation v, g, _ => some (.ok (v.normalize false g))
  | .predicate p, g, _ =>
    match p.preEval with
    | .error e => some (.error e)
    | .ok p1 => some (.ok (Disjunction.singlet (.predicate p1), g))
  | .negation n _, g, tx =>
    match n with
    | .rule r => some (.ok (r.normalize true g))
    | .attrTriple a =>
      match a.normalize true g tx with
      | .error e => some (.error e)
      | .ok r => some (.ok r)
    | .relation v => some (.ok (v.normalize true g))
    | _ => none
  | .unification u, g, _ =>
    some (.ok (Disjunction.singlet (.unification u), g))

/-- Embeds the `for a in args { result = result.conjunctive_to_disjunctive_de_morgen(a?) }`
loop of the `Conjunction` arm, with the lazy evaluation of each remaining
child. -/
def dnfConjunctionFold :
    List InputAtom → Disjunction → TempSymbGen → SessionTx →
    Option (Except CozoError (Disjunction × TempSymbGen))
  | [], acc, g, _ => some (.ok (acc, g))
  | a :: rest, acc, g, tx =>
    match a.doDisjunctiveNormalForm g tx with
    | none => none
    | some (.error e) => some (.error e)
    | some (.ok (d, g1)) =>
      dnfConjunctionFold rest (acc.conjunctiveToDisjunctiveDeMorgen d) g1 tx

/-- Embeds the flattening loop of the `Disjunction` arm: concatenate the
conjunctions of every child's DNF, left to right. -/
def dnfDisjunctionParts :
    List InputAtom → TempSymbGen → SessionTx →
    Option (Except CozoError (List Conjunction × TempSymbGen))
  | [], g, _ => some (.ok ([], g))
  | a :: rest, g, tx =>
    match a.doDisjunctiveNormalForm g tx with
    | none => none
    | some (.error e) => some (.error e)
    | some (.ok (d, g1)) =>
      match dnfDisjunctionParts rest g1 tx with
      | none => none
      | some (.error e) => some (.error e)
      | some (.ok (cs, g2)) => some (.ok (d.inner ++ cs, g2))

end

/-- Embeds `InputAtom::disjunctive_normal_form`: negation normal form, then a
fresh default generator, then `do_disjunctive_normal_form`. -/
def InputAtom.disjunctiveNormalForm (self : InputAtom) (tx : SessionTx) :
    Option (Except CozoError Disjunction) :=
  match self.negationNormalForm with
  | .error e => some (.error e)
  | .ok negForm =>
    match negForm.doDisjunctiveNormalForm ⟨0⟩ tx with
    | none => none
    | some (.error e) => some (.error e)
    | some (.ok (d, _)) => some (.ok d)

/-- Embeds `ViewOp` from parse/query.rs (outside the slice); its four
variants are fixed by the matches in db.rs and parse/script/query.rs. -/
inductive ViewOp where
  | create
  | rederive
  | put
  | retract
deriving DecidableEq, Repr

/-- Embeds the fields of `ViewRelMetadata` the run-query gate consults. -/
structure ViewRelMetadata where
  name : String
  arity : Nat
deriving DecidableEq, Repr

/-- Embeds `RunningQueryHandle`: the start time and the shared poison flag.
The `Arc<AtomicBool>` is modelled by an index into a global store of boolean
flags (`poisonFlags` below), so that sharing of one flag between the registry
entry, the guard and the evaluator is faithful. -/
structure RunningQueryHandle where
  startedAt : Nat
  poison : Nat
deriving DecidableEq, Repr

/-- A JSON-ish value for the rows returned by the listing sys ops. -/
inductive Json where
  | str (s : String)
  | num (n : Nat)
  | arr (xs : List Json)

/-- The mutable state of `Db` that the claims under verification touch: the
running-query registry (`mutex<ordered map<id, handle>>`), the store of
poison flags, the view catalog (name and arity, as listed by
`list_relations`), and the attribute schema rows. -/
structure RuntimeState where
  runningQueries : List (Nat × RunningQueryHandle)
  poisonFlags : Nat → Bool
  views : List (String × Nat)
  schemaRows : List Json

/-- `BTreeMap::get` on the registry. -/
def lookupQuery (id : Nat) (m : List (Nat × RunningQueryHandle)) :
    Option RunningQueryHandle :=
  (m.find? fun p => p.1 = id).map (·.2)

/-- `BTreeMap::remove` on the registry (the key is unique). -/
def removeQuery (id : Nat) (m : List (Nat × RunningQueryHandle)) :
    List (Nat × RunningQueryHandle) :=
  m.filter fun p => p.1 ≠ id

/-- `BTreeMap::insert` on the registry (replaces any entry with the key). -/
def insertQuery (id : Nat) (h : RunningQueryHandle)
    (m : List (Nat × RunningQueryHandle)) : List (Nat × RunningQueryHandle) :=
  (id, h) :: removeQuery id m

/-- `AtomicBool::store(true)` on the poison flag with the given index. -/
def setPoison (f : Nat → Bool) (k : Nat) : Nat → Bool :=
  fun j => if j = k then true else f j

/-- Embeds `impl Drop for RunningQueryCleanup`: remove the entry for the
guard's id from the registry and, if an entry was present, store `true` into
its handle's poison flag. -/
def runningQueryCleanupDrop (id : Nat) (st : RuntimeState) : RuntimeState :=
  match lookupQuery id st.runningQueries with
  | none => { st with runningQueries := removeQuery id st.runningQueries }
  | some h =>
    { st with
        runningQueries := removeQuery id st.runningQueries,
        poisonFlags := setPoison st.poisonFlags h.poison }

/-- Embeds the registration step of `Db::run_query`: insert the fresh id with
its handle into the running-query registry. -/
def registerRunningQuery (id : Nat) (h : RunningQueryHandle)
    (st : RuntimeState) : RuntimeState :=
  { st with runningQueries := insertQuery id h st.runningQueries }

/-- Embeds the registry life cycle of one `Db::run_query` call: the handle is
inserted, and the scoped guard (which runs on every exit path) is dropped when
the call returns. -/
def runQueryRegistration (st : RuntimeState) (id : Nat)
    (h : RunningQueryHandle) : RuntimeState :=
  runningQueryCleanupDrop id (registerRunningQuery id h st)

/-- Embeds `CompactTarget` from parse/cozoscript/sys.rs (outside the slice;
variants fixed by the match in `run_sys_op`). -/
inductive CompactTarget where
  | triples
  | relations
deriving DecidableEq, Repr

/-- Embeds `SysOp` (variants fixed by the match in `run_sys_op`). -/
inductive SysOp where
  | compact (opts : List CompactTarget)
  | listSchema
  | listRelations
  | removeRelations (rs : List String)
  | listRunning
  | killRunning (id : Nat)

/-- The JSON value returned by a sys op: either an object with a `status`
string, or a `rows`/`headers` table (as returned by the listing ops). -/
inductive SysOpResult where
  | status (s : String)
  | table (rows : List Json) (headers : List String)

/-- Embeds `Db::run_sys_op` on its success path.  Compaction and the physical
reads behind the listing ops are storage-level effects outside the slice; the
logical state transition and the returned JSON shape follow the source arm by
arm. -/
def runSysOp (st : RuntimeState) (op : SysOp) : RuntimeState × SysOpResult :=
  match op with
  | .compact _opts => (st, .status ("OK"))
  | .listSchema =>
    (st, .table st.schemaRows
      ["id", "name", "type", "cardinality", "index", "history"])
  | .listRelations =>
    (st, .table (st.views.map fun v => .arr [.str v.1, .num v.2])
      ["name", "arity"])
  | .removeRelations rs =>
    ({ st with views := st.views.filter fun v => ¬ rs.contains v.1 },
     .status ("OK"))
  | .listRunning =>
    (st, .table (st.runningQueries.map fun p => .arr [.num p.1, .num p.2.startedAt])
      ["?id", "?started_at"])
  | .killRunning id =>
    match lookupQuery id st.runningQueries with
    | none => (st, .status ("NOT_FOUND"))
    | some handle =>
      ({ st with poisonFlags := setPoison st.poisonFlags handle.poison },
       .status ("KILLING"))

/-- The slice of `QueryOutOptions` the run-query view gate consults. -/
structure QueryOutOptions where
  asView : Option (ViewRelMetadata × ViewOp)

/-- The slice of `InputProgram` the run-query view gate consults. -/
structure InputProgramModel where
  outOpts : QueryOutOptions

/-- Embeds `SessionTx::view_exists` as a lookup in the view catalog. -/
def viewExists (st : RuntimeState) (name : String) : Bool :=
  st.views.any fun v => v.1 = name

/-- Embeds the view precondition gate at the top of `Db::run_query`:
`Create` requires the view to be absent, every op other than `Create` and
`Rederive` (that is, `Put` and `Retract`) requires it to be present, and
`Rederive` is not checked. -/
def runQueryViewGate (st : RuntimeState) (prog : InputProgramModel) :
    Except String Unit :=
  match prog.outOpts.asView with
  | none => .ok ()
  | some (meta, op) =>
    if op = ViewOp.create then
      if viewExists st meta.name then
        .error ("view exists but is required not to be")
      else .ok ()
    else if op ≠ ViewOp.rederive then
      if viewExists st meta.name then .ok ()
      else .error ("view does not exist but is required to be")
    else .ok ()

/-- Embeds the control flow of `Db::run_query` around the gate: the program
is already parsed, the gate runs, and only if it passes does the rest of the
pipeline (normalization, stratification, magic-set rewriting, compilation,
evaluation and view emission — elided code, taken here as an arbitrary
function of the state) run.  A gate failure is an early `ensure!` return, so
the pipeline is never consulted and the state is untouched. -/
def runQueryModel (st : RuntimeState) (prog : InputProgramModel)
    (pipeline : RuntimeState → Except String (RuntimeState × List Json)) :
    Except String (RuntimeState × List Json) :=
  match runQueryViewGate st prog with
  | .error e => .error e
  | .ok _ => pipeline st

/-- `Tuple(pub Vec<DataValue>)` from data/tuple.rs. -/
abbrev Tuple := List DataValue

/-- The const-rule map of `parse_query`, keyed by rule name (the
`MagicSymbol::Muggle` wrapper adds no information at this level). -/
abbrev ConstRules := List (String × List Tuple)

/-- `BTreeMap::entry` lookup on the const-rule map. -/
def constRulesLookup (name : String) (m : ConstRules) : Option (List Tuple) :=
  (m.find? fun p => p.1 = name).map (·.2)

/-- Embeds the row-validation loop of the const-rule arm of `parse_query`:
each row must be a list, and (checked against the previous row's length kept
in `last_len`) all rows must have the same length; valid rows are pushed in
order. -/
def constRuleRows : List DataValue → Option Nat → List Tuple →
    Except String (List Tuple)
  | [], _, tuples => .ok tuples
  | .list tuple :: rest, lastLen, tuples =>
    match lastLen with
    | some l =>
      if l = tuple.length then
        constRuleRows rest (some tuple.length) (tuples ++ [tuple])
      else .error ("all rows in const rules must have the same length")
    | none => constRuleRows rest (some tuple.length) (tuples ++ [tuple])
  | .prim _ :: _, _, _ => .error ("rows of const rules must be list")

/-- Embeds the `Rule::const_rule` arm of `parse_query`, from the point where
the rule body has been evaluated to a constant (`build_expr` and
`eval_to_const` are `todo!()` stubs in the slice, so the evaluated
`DataValue` is taken as input): the body must be a list, must be non-empty,
the rule name must not already be defined as a const rule, and the validated
rows are inserted under the name. -/
def parseConstRule (name : String) (data : DataValue) (constRules : ConstRules) :
    Except String ConstRules :=
  match data with
  | .prim _ => .error ("const rules must have body consisting of a list")
  | .list l =>
    if l.isEmpty then .error ("const rules cannot be empty")
    else
      match constRulesLookup name constRules with
      | some _ => .error ("const rule can be defined only once")
      | none =>
        match constRuleRows l none [] with
        | .error e => .error e
        | .ok tuples => .ok (constRules ++ [(name, tuples)])

/-- All ways of choosing one inner list from each of the given lists and
concatenating the choices in order (the n-ary cross product by concatenation
that the claim about DNF distribution describes). -/
def crossConcat {α : Type} : List (List (List α)) → List (List α)
  | [] => [[]]
  | c :: cs => c.flatMap fun x => (crossConcat cs).map fun y => x ++ y

/-- The sequence of DNFs of a list of sibling atoms, with the generator
threaded left to right exactly as the `Conjunction` arm of
`do_disjunctive_normal_form` threads it. -/
def dnfSeq : List InputAtom → TempSymbGen → SessionTx →
    Option (Except CozoError (List Disjunction × TempSymbGen))
  | [], g, _ => some (.ok ([], g))
  | a :: rest, g, tx =>
    match a.doDisjunctiveNormalForm g tx with
    | none => none
    | some (.error e) => some (.error e)
    | some (.ok (d, g1)) =>
      match dnfSeq rest g1 tx with
      | none => none
      | some (.error e) => some (.error e)
      | some (.ok (ds, g2)) => some (.ok (d :: ds, g2))

mutual

/-- Whether an atom contains a `Unification` under an odd number of nested
`Negation` nodes (the parameter is the parity of enclosing negations). -/
def unificationUnderOddNegations : Bool → InputAtom → Bool
  | negated, .unification _ => negated
  | negated, .negation a _ => unificationUnderOddNegations (!negated) a
  | negated, .conjunction args _ => anyUnificationUnderOddNegations negated args
  | negated, .disjunction args _ => anyUnificationUnderOddNegations negated args
  | _, .attrTriple _ => false
  | _, .rule _ => false
  | _, .relation _ => false
  | _, .predicate _ => false

/-- List version of `unificationUnderOddNegations`. -/
def anyUnificationUnderOddNegations : Bool → List InputAtom → Bool
  | _, [] => false
  | negated, a :: rest =>
    unificationUnderOddNegations negated a ||
      anyUnificationUnderOddNegations negated rest

end

/-- The atom kinds a `Negation` may wrap in negation normal form. -/
def isBaseNegatable : InputAtom → Bool
  | .attrTriple _ => true
  | .rule _ => true
  | .relation _ => true
  | _ => false

mutual

/-- Whether an atom is in negation normal form: every `Negation` node wraps
an `AttrTriple`, `Rule` or `Relation` atom (in particular no `Conjunction`,
`Disjunction` or `Negation` is negated). -/
def negationNormalized : InputAtom → Bool
  | .negation arg _ => isBaseNegatable arg
  | .conjunction args _ => allNegationNormalized args
  | .disjunction args _ => allNegationNormalized args
  | .attrTriple _ => true
  | .rule _ => true
  | .relation _ => true
  | .predicate _ => true
  | .unification _ => true

/-- List version of `negationNormalized`. -/
def allNegationNormalized : List InputAtom → Bool
  | [] => true
  | a :: rest => negationNormalized a && allNegationNormalized rest

end

mutual

/-- Whether every `Conjunction` node of the atom has at least one child. -/
def noEmptyConjunction : InputAtom → Bool
  | .conjunction args _ => (!args.isEmpty) && allNoEmptyConjunction args
  | .disjunction args _ => allNoEmptyConjunction args
  | .negation arg _ => noEmptyConjunction arg
  | .attrTriple _ => true
  | .rule _ => true
  | .relation _ => true
  | .predicate _ => true
  | .unification _ => true

/-- List version of `noEmptyConjunction`. -/
def allNoEmptyConjunction : List InputAtom → Bool
  | [] => true
  | a :: rest => noEmptyConjunction a && allNoEmptyConjunction rest

end

mutual

/-- Whether the atom contains a `Conjunction` node with an empty child
list. -/
def containsEmptyConjunction : InputAtom → Bool
  | .conjunction args _ => args.isEmpty || anyContainsEmptyConjunction args
  | .disjunction args _ => anyContainsEmptyConjunction args
  | .negation arg _ => containsEmptyConjunction arg
  | .attrTriple _ => false
  | .rule _ => false
  | .relation _ => false
  | .predicate _ => false
  | .unification _ => false

/-- List version of `containsEmptyConjunction`. -/
def anyContainsEmptyConjunction : List InputAtom → Bool
  | [] => false
  | a :: rest => containsEmptyConjunction a || anyContainsEmptyConjunction rest

end

/-- Membership of a symbol, up to identifier equality, in the set of
variables seen so far. -/
def seenVar (kw : Symbol) (seen : List Symbol) : Bool :=
  seen.any fun s => s.sameVar kw

/-- The variables among a list of argument terms, in order. -/
def termVars (ts : List InputTerm) : List Symbol :=
  ts.filterMap fun t =>
    match t with
    | .var k => some k
    | .const _ _ => none

/-- What atom normalization is claimed to do to one argument position:
a constant becomes a fresh (generator-produced) symbol together with a
unification of that symbol to the constant; a variable that was already seen
(in `earlier`) becomes a fresh symbol together with a unification of that
symbol to the original variable; a first-occurrence variable is kept. -/
def argOutcome (t : InputTerm) (earlier : List Symbol) (out : Symbol)
    (unifs : List NormalFormAtom) : Prop :=
  match t with
  | .const v sp =>
    (∃ n nsp, out = Symbol.temp n nsp) ∧
    NormalFormAtom.unification ⟨out, .const v sp, false, sp⟩ ∈ unifs
  | .var kw =>
    (seenVar kw earlier = true →
      (∃ n nsp, out = Symbol.temp n nsp) ∧
      ∃ usp, NormalFormAtom.unification ⟨out, .binding kw none, false, usp⟩ ∈ unifs) ∧
    (seenVar kw earlier = false → out = kw)

theorem nnfList_eq_mapM (as : List InputAtom) :
    nnfList as = as.mapM InputAtom.negationNormalForm := by
  rw [← List.mapM'_eq_mapM]
  induction as with
  | nil => rfl
  | cons a rest ih =>
    cases h : a.negationNormalForm with
    | error e => simp [nnfList, List.mapM', h]; rfl
    | ok y =>
      cases h2 : nnfList rest with
      | error e => simp [nnfList, List.mapM', h, h2, ih.symm.trans h2]; rfl
      | ok ys => simp [nnfList, List.mapM', h, h2, ih.symm.trans h2]; rfl

theorem nnfNegList_eq_mapM (as : List InputAtom) :
    nnfNegList as =
      as.mapM fun a => (InputAtom.negation a a.span).negationNormalForm := by
  rw [← List.mapM'_eq_mapM]
  induction as with
  | nil => rfl
  | cons a rest ih =>
    have hne : (InputAtom.negation a a.span).negationNormalForm =
        nnfUnderNegation a a.span := by
      simp [InputAtom.negationNormalForm]
    cases h : nnfUnderNegation a a.span with
    | error e => simp [nnfNegList, List.mapM', h, hne]; rfl
    | ok y =>
      cases h2 : nnfNegList rest with
      | error e => simp [nnfNegList, List.mapM', h, hne, h2, ih.symm.trans h2]; rfl
      | ok ys => simp [nnfNegList, List.mapM', h, hne, h2, ih.symm.trans h2]; rfl

/-- C1: `negation_normal_form` pushes negation inward by De Morgan: the
negation of a `Conjunction` becomes the `Disjunction` of the normalized
negations of its children, the negation of a `Disjunction` becomes the
`Conjunction` of the normalized negations of its children, a double negation
normalizes to the normal form of the doubly-negated operand, the negation of
a `Predicate` becomes the predicate with its boolean expression negated, a
negation of an `AttrTriple`, `Rule` or `Relation` atom is kept as-is, and
every other atom kind is preserved up to recursive normalization of its
children. -/
theorem negationNormalForm_deMorgan_spec :
    (∀ a : InputAttrTripleAtom,
      (InputAtom.attrTriple a).negationNormalForm = .ok (.attrTriple a)) ∧
    (∀ r : InputRuleApplyAtom,
      (InputAtom.rule r).negationNormalForm = .ok (.rule r)) ∧
    (∀ v : InputRelationApplyAtom,
      (InputAtom.relation v).negationNormalForm = .ok (.relation v)) ∧
    (∀ p : Expr,
      (InputAtom.predicate p).negationNormalForm = .ok (.predicate p)) ∧
    (∀ u : Unification,
      (InputAtom.unification u).negationNormalForm = .ok (.unification u)) ∧
    (∀ args sp, (InputAtom.conjunction args sp).negationNormalForm =
      (args.mapM InputAtom.negationNormalForm).map fun ys =>
        .conjunction ys sp) ∧
    (∀ args sp, (InputAtom.disjunction args sp).negationNormalForm =
      (args.mapM InputAtom.negationNormalForm).map fun ys =>
        .disjunction ys sp) ∧
    (∀ args spc sp,
      (InputAtom.negation (.conjunction args spc) sp).negationNormalForm =
      (args.mapM fun a => (InputAtom.negation a a.span).negationNormalForm).map
        fun ys => .disjunction ys sp) ∧
    (∀ args spd sp,
      (InputAtom.negation (.disjunction args spd) sp).negationNormalForm =
      (args.mapM fun a => (InputAtom.negation a a.span).negationNormalForm).map
        fun ys => .conjunction ys spd) ∧
    (∀ a spi sp,
      (InputAtom.negation (.negation a spi) sp).negationNormalForm =
        a.negationNormalForm) ∧
    (∀ p sp, (InputAtom.negation (.predicate p) sp).negationNormalForm =
      .ok (.predicate (p.negate sp))) ∧
    (∀ a sp, (InputAtom.negation (.attrTriple a) sp).negationNormalForm =
      .ok (.negation (.attrTriple a) sp)) ∧
    (∀ r sp, (InputAtom.negation (.rule r) sp).negationNormalForm =
      .ok (.negation (.rule r) sp)) ∧
    (∀ v sp, (InputAtom.negation (.relation v) sp).negationNormalForm =
      .ok (.negation (.relation v) sp)) := by
  refine ⟨fun a => rfl, fun r => rfl, fun v => rfl, fun p => rfl, fun u => rfl,
    ?_, ?_, ?_, ?_, fun a spi sp => rfl, fun p sp => rfl, fun a sp => rfl,
    fun r sp => rfl, fun v sp => rfl⟩
  · intro args sp
    rw [← nnfList_eq_mapM]
    cases h : nnfList args with
    | error e => simp [InputAtom.negationNormalForm, h]; rfl
    | ok ys => simp [InputAtom.negationNormalForm, h]; rfl
  · intro args sp
    rw [← nnfList_eq_mapM]
    cases h : nnfList args with
    | error e => simp [InputAtom.negationNormalForm, h]; rfl
    | ok ys => simp [InputAtom.negationNormalForm, h]; rfl
  · intro args spc sp
    rw [← nnfNegList_eq_mapM]
    cases h : nnfNegList args with
    | error e => simp [InputAtom.negationNormalForm, nnfUnderNegation, h]; rfl
    | ok ys => simp [InputAtom.negationNormalForm, nnfUnderNegation, h]; rfl
  · intro args spd sp
    rw [← nnfNegList_eq_mapM]
    cases h : nnfNegList args with
    | error e => simp [InputAtom.negationNormalForm, nnfUnderNegation, h]; rfl
    | ok ys => simp [InputAtom.negationNormalForm, nnfUnderNegation, h]; rfl

mutual

theorem nnfOk_normalized (a : InputAtom) :
    ∀ y, a.negationNormalForm = .ok y → negationNormalized y = true := by
  cases a with
  | attrTriple x =>
    intro y h
    simp [InputAtom.negationNormalForm] at h
    subst h; rfl
  | rule x =>
    intro y h
    simp [InputAtom.negationNormalForm] at h
    subst h; rfl
  | relation x =>
    intro y h
    simp [InputAtom.negationNormalForm] at h
    subst h; rfl
  | predicate x =>
    intro y h
    simp [InputAtom.negationNormalForm] at h
    subst h; rfl
  | unification x =>
    intro y h
    simp [InputAtom.negationNormalForm] at h
    subst h; rfl
  | conjunction args sp =>
    intro y h
    simp only [InputAtom.negationNormalForm] at h
    cases hl : nnfList args with
    | error e => rw [hl] at h; exact absurd h (by simp)
    | ok ys =>
      rw [hl] at h
      simp only [Except.ok.injEq] at h
      subst h
      simpa [negationNormalized] using nnfListOk_normalized args ys hl
  | disjunction args sp =>
    intro y h
    simp only [InputAtom.negationNormalForm] at h
    cases hl : nnfList args with
    | error e => rw [hl] at h; exact absurd h (by simp)
    | ok ys =>
      rw [hl] at h
      simp only [Except.ok.injEq] at h
      subst h
      simpa [negationNormalized] using nnfListOk_normalized args ys hl
  | negation arg sp =>
    intro y h
    simp only [InputAtom.negationNormalForm] at h
    exact nnfNegOk_normalized arg sp y h

theorem nnfNegOk_normalized (a : InputAtom) (sp : Nat) :
    ∀ y, nnfUnderNegation a sp = .ok y → negationNormalized y = true := by
  cases a with
  | attrTriple x =>
    intro y h
    simp [nnfUnderNegation] at h
    subst h; rfl
  | rule x =>
    intro y h
    simp [nnfUnderNegation] at h
    subst h; rfl
  | relation x =>
    intro y h
    simp [nnfUnderNegation] at h
    subst h; rfl
  | predicate x =>
    intro y h
    simp [nnfUnderNegation] at h
    subst h; rfl
  | unification x =>
    intro y h
    simp [nnfUnderNegation] at h
  | negation inner spi =>
    intro y h
    simp only [nnfUnderNegation] at h
    exact nnfOk_normalized inner y h
  | conjunction args spc =>
    intro y h
    simp only [nnfUnderNegation] at h
    cases hl : nnfNegList args with
    | error e => rw [hl] at h; exact absurd h (by simp)
    | ok ys =>
      rw [hl] at h
      simp only [Except.ok.injEq] at h
      subst h
      simpa [negationNormalized] using nnfNegListOk_normalized args ys hl
  | disjunction args spd =>
    intro y h
    simp only [nnfUnderNegation] at h
    cases hl : nnfNegList args with
    | error e => rw [hl] at h; exact absurd h (by simp)
    | ok ys =>
      rw [hl] at h
      simp only [Except.ok.injEq] at h
      subst h
      simpa [negationNormalized] using nnfNegListOk_normalized args ys hl

theorem nnfListOk_normalized (as : List InputAtom) :
    ∀ ys, nnfList as = .ok ys → allNegationNormalized ys = true := by
  cases as with
  | nil =>
    intro ys h
    simp [nnfList] at h
    subst h; rfl
  | cons a rest =>
    intro ys h
    simp only [nnfList] at h
    cases ha : a.negationNormalForm with
    | error e => rw [ha] at h; exact absurd h (by simp)
    | ok y =>
      rw [ha] at h
      cases hr : nnfList rest with
      | error e => rw [hr] at h; exact absurd h (by simp)
      | ok ys2 =>
        rw [hr] at h
        simp only [Except.ok.injEq] at h
        subst h
        simp [allNegationNormalized, nnfOk_normalized a y ha,
          nnfListOk_normalized rest ys2 hr]

theorem nnfNegListOk_normalized (as : List InputAtom) :
    ∀ ys, nnfNegList as = .ok ys → allNegationNormalized ys = true := by
  cases as with
  | nil =>
    intro ys h
    simp [nnfNegList] at h
    subst h; rfl
  | cons a rest =>
    intro ys h
    simp only [nnfNegList] at h
    cases ha : nnfUnderNegation a a.span with
    | error e => rw [ha] at h; exact absurd h (by simp)
    | ok y =>
      rw [ha] at h
      cases hr : nnfNegList rest with
      | error e => rw [hr] at h; exact absurd h (by simp)
      | ok ys2 =>
        rw [hr] at h
        simp only [Except.ok.injEq] at h
        subst h
        simp [allNegationNormalized, nnfNegOk_normalized a a.span y ha,
          nnfNegListOk_normalized rest ys2 hr]

end

mutual

theorem normalized_nnf_fixed (a : InputAtom) :
    negationNormalized a = true → a.negationNormalForm = .ok a := by
  cases a with
  | attrTriple x => intro _; rfl
  | rule x => intro _; rfl
  | relation x => intro _; rfl
  | predicate x => intro _; rfl
  | unification x => intro _; rfl
  | conjunction args sp =>
    intro h
    simp only [negationNormalized] at h
    simp [InputAtom.negationNormalForm, allNormalized_nnfList_fixed args h]
  | disjunction args sp =>
    intro h
    simp only [negationNormalized] at h
    simp [InputAtom.negationNormalForm, allNormalized_nnfList_fixed args h]
  | negation arg sp =>
    intro h
    simp only [negationNormalized] at h
    cases arg with
    | attrTriple x => rfl
    | rule x => rfl
    | relation x => rfl
    | predicate x => exact absurd h (by simp [isBaseNegatable])
    | unification x => exact absurd h (by simp [isBaseNegatable])
    | conjunction args2 sp2 => exact absurd h (by simp [isBaseNegatable])
    | disjunction args2 sp2 => exact absurd h (by simp [isBaseNegatable])
    | negation arg2 sp2 => exact absurd h (by simp [isBaseNegatable])

theorem allNormalized_nnfList_fixed (as : List InputAtom) :
    allNegationNormalized as = true → nnfList as = .ok as := by
  cases as with
  | nil => intro _; rfl
  | cons a rest =>
    intro h
    simp only [allNegationNormalized, Bool.and_eq_true] at h
    simp [nnfList, normalized_nnf_fixed a h.1,
      allNormalized_nnfList_fixed rest h.2]

end

/-- C4: `negation_normal_form` is idempotent — whenever it succeeds, running
it on its own output succeeds and returns that output unchanged — and in the
output no `Negation` node has a `Conjunction`, `Disjunction` or `Negation` as
its operand (negation only wraps `AttrTriple`, `Rule` or `Relation`
atoms). -/
theorem negationNormalForm_idempotent (x y : InputAtom)
    (h : x.negationNormalForm = .ok y) :
    y.negationNormalForm = .ok y ∧ negationNormalized y = true :=
  ⟨normalized_nnf_fixed y (nnfOk_normalized x y h), nnfOk_normalized x y h⟩

/-- Witness for the idempotence claim on a concrete atom: the normal form of
`¬(rule ∧ unif-free conjunction)` is a fixed point of normalization. -/
theorem negationNormalForm_idempotent_witness :
    (InputAtom.disjunction [.negation (.rule ⟨"r", [], 3⟩) 3] 2).negationNormalForm
      = .ok (InputAtom.disjunction [.negation (.rule ⟨"r", [], 3⟩) 3] 2) ∧
    negationNormalized (InputAtom.disjunction [.negation (.rule ⟨"r", [], 3⟩) 3] 2) = true :=
  negationNormalForm_idempotent
    (.negation (.conjunction [.rule ⟨"r", [], 3⟩] 1) 2)
    (.disjunction [.negation (.rule ⟨"r", [], 3⟩) 3] 2) (by rfl)

mutual

theorem nnf_viol_spec (a : InputAtom) :
    (unificationUnderOddNegations false a = true →
      ∃ u, a.negationNormalForm = .error (.negatedUnification u)) ∧
    (unificationUnderOddNegations false a = false →
      ∃ y, a.negationNormalForm = .ok y) := by
  cases a with
  | attrTriple x =>
    exact ⟨fun h => absurd h (by simp [unificationUnderOddNegations]),
      fun _ => ⟨_, rfl⟩⟩
  | rule x =>
    exact ⟨fun h => absurd h (by simp [unificationUnderOddNegations]),
      fun _ => ⟨_, rfl⟩⟩
  | relation x =>
    exact ⟨fun h => absurd h (by simp [unificationUnderOddNegations]),
      fun _ => ⟨_, rfl⟩⟩
  | predicate x =>
    exact ⟨fun h => absurd h (by simp [unificationUnderOddNegations]),
      fun _ => ⟨_, rfl⟩⟩
  | unification x =>
    exact ⟨fun h => absurd h (by simp [unificationUnderOddNegations]),
      fun _ => ⟨_, rfl⟩⟩
  | conjunction args sp =>
    constructor
    · intro h
      simp only [unificationUnderOddNegations] at h
      obtain ⟨u, hu⟩ := (nnfList_viol_spec args).1 h
      exact ⟨u, by simp [InputAtom.negationNormalForm, hu]⟩
    · intro h
      simp only [unificationUnderOddNegations] at h
      obtain ⟨ys, hy⟩ := (nnfList_viol_spec args).2 h
      exact ⟨.conjunction ys sp, by simp [InputAtom.negationNormalForm, hy]⟩
  | disjunction args sp =>
    constructor
    · intro h
      simp only [unificationUnderOddNegations] at h
      obtain ⟨u, hu⟩ := (nnfList_viol_spec args).1 h
      exact ⟨u, by simp [InputAtom.negationNormalForm, hu]⟩
    · intro h
      simp only [unificationUnderOddNegations] at h
      obtain ⟨ys, hy⟩ := (nnfList_viol_spec args).2 h
      exact ⟨.disjunction ys sp, by simp [InputAtom.negationNormalForm, hy]⟩
  | negation arg sp =>
    constructor
    · intro h
      simp only [unificationUnderOddNegations, Bool.not_false] at h
      obtain ⟨u, hu⟩ := (nnfNeg_viol_spec arg sp).1 h
      exact ⟨u, by simp [InputAtom.negationNormalForm, hu]⟩
    · intro h
      simp only [unificationUnderOddNegations, Bool.not_false] at h
      obtain ⟨y, hy⟩ := (nnfNeg_viol_spec arg sp).2 h
      exact ⟨y, by simp [InputAtom.negationNormalForm, hy]⟩

theorem nnfNeg_viol_spec (a : InputAtom) (sp : Nat) :
    (unificationUnderOddNegations true a = true →
      ∃ u, nnfUnderNegation a sp = .error (.negatedUnification u)) ∧
    (unificationUnderOddNegations true a = false →
      ∃ y, nnfUnderNegation a sp = .ok y) := by
  cases a with
  | attrTriple x =>
    exact ⟨fun h => absurd h (by simp [unificationUnderOddNegations]),
      fun _ => ⟨_, rfl⟩⟩
  | rule x =>
    exact ⟨fun h => absurd h (by simp [unificationUnderOddNegations]),
      fun _ => ⟨_, rfl⟩⟩
  | relation x =>
    exact ⟨fun h => absurd h (by simp [unificationUnderOddNegations]),
      fun _ => ⟨_, rfl⟩⟩
  | predicate x =>
    exact ⟨fun h => absurd h (by simp [unificationUnderOddNegations]),
      fun _ => ⟨_, rfl⟩⟩
  | unification x =>
    exact ⟨fun _ => ⟨x, rfl⟩,
      fun h => absurd h (by simp [unificationUnderOddNegations])⟩
  | negation inner spi =>
    constructor
    · intro h
      simp only [unificationUnderOddNegations, Bool.not_true] at h
      obtain ⟨u, hu⟩ := (nnf_viol_spec inner).1 h
      exact ⟨u, by simp [nnfUnderNegation, hu]⟩
    · intro h
      simp only [unificationUnderOddNegations, Bool.not_true] at h
      obtain ⟨y, hy⟩ := (nnf_viol_spec inner).2 h
      exact ⟨y, by simp [nnfUnderNegation, hy]⟩
  | conjunction args spc =>
    constructor
    · intro h
      simp only [unificationUnderOddNegations] at h
      obtain ⟨u, hu⟩ := (nnfNegList_viol_spec args).1 h
      exact ⟨u, by simp [nnfUnderNegation, hu]⟩
    · intro h
      simp only [unificationUnderOddNegations] at h
      obtain ⟨ys, hy⟩ := (nnfNegList_viol_spec args).2 h
      exact ⟨.disjunction ys sp, by simp [nnfUnderNegation, hy]⟩
  | disjunction args spd =>
    constructor
    · intro h
      simp only [unificationUnderOddNegations] at h
      obtain ⟨u, hu⟩ := (nnfNegList_viol_spec args).1 h
      exact ⟨u, by simp [nnfUnderNegation, hu]⟩
    · intro h
      simp only [unificationUnderOddNegations] at h
      obtain ⟨ys, hy⟩ := (nnfNegList_viol_spec args).2 h
      exact ⟨.conjunction ys spd, by simp [nnfUnderNegation, hy]⟩

theorem nnfList_viol_spec (as : List InputAtom) :
    (anyUnificationUnderOddNegations false as = true →
      ∃ u, nnfList as = .error (.negatedUnification u)) ∧
    (anyUnificationUnderOddNegations false as = false →
      ∃ ys, nnfList as = .ok ys) := by
  cases as with
  | nil =>
    exact ⟨fun h => absurd h (by simp [anyUnificationUnderOddNegations]),
      fun _ => ⟨_, rfl⟩⟩
  | cons a rest =>
    constructor
    · intro h
      simp only [anyUnificationUnderOddNegations, Bool.or_eq_true] at h
      cases hv : unificationUnderOddNegations false a with
      | true =>
        obtain ⟨u, hu⟩ := (nnf_viol_spec a).1 hv
        exact ⟨u, by simp [nnfList, hu]⟩
      | false =>
        have hrest : anyUnificationUnderOddNegations false rest = true := by
          rcases h with h | h
          · exact absurd h (by simp [hv])
          · exact h
        obtain ⟨y, hy⟩ := (nnf_viol_spec a).2 hv
        obtain ⟨u, hu⟩ := (nnfList_viol_spec rest).1 hrest
        exact ⟨u, by simp [nnfList, hy, hu]⟩
    · intro h
      simp only [anyUnificationUnderOddNegations, Bool.or_eq_false_iff] at h
      obtain ⟨y, hy⟩ := (nnf_viol_spec a).2 h.1
      obtain ⟨ys, hys⟩ := (nnfList_viol_spec rest).2 h.2
      exact ⟨y :: ys, by simp [nnfList, hy, hys]⟩

theorem nnfNegList_viol_spec (as : List InputAtom) :
    (anyUnificationUnderOddNegations true as = true →
      ∃ u, nnfNegList as = .error (.negatedUnification u)) ∧
    (anyUnificationUnderOddNegations true as = false →
      ∃ ys, nnfNegList as = .ok ys) := by
  cases as with
  | nil =>
    exact ⟨fun h => absurd h (by simp [anyUnificationUnderOddNegations]),
      fun _ => ⟨_, rfl⟩⟩
  | cons a rest =>
    constructor
    · intro h
      simp only [anyUnificationUnderOddNegations, Bool.or_eq_true] at h
      cases hv : unificationUnderOddNegations true a with
      | true =>
        obtain ⟨u, hu⟩ := (nnfNeg_viol_spec a a.span).1 hv
        exact ⟨u, by simp [nnfNegList, hu]⟩
      | false =>
        have hrest : anyUnificationUnderOddNegations true rest = true := by
          rcases h with h | h
          · exact absurd h (by simp [hv])
          · exact h
        obtain ⟨y, hy⟩ := (nnfNeg_viol_spec a a.span).2 hv
        obtain ⟨u, hu⟩ := (nnfNegList_viol_spec rest).1 hrest
        exact ⟨u, by simp [nnfNegList, hy, hu]⟩
    · intro h
      simp only [anyUnificationUnderOddNegations, Bool.or_eq_false_iff] at h
      obtain ⟨y, hy⟩ := (nnfNeg_viol_spec a a.span).2 h.1
      obtain ⟨ys, hys⟩ := (nnfNegList_viol_spec rest).2 h.2
      exact ⟨y :: ys, by simp [nnfNegList, hy, hys]⟩

end

/-- C5: `negation_normal_form` returns the negated-unification error exactly
when the input contains a `Unification` atom under an odd number of nested
`Negation` nodes; on every other input it succeeds. -/
theorem negationNormalForm_negatedUnification_iff (x : InputAtom) :
    ((∃ u, x.negationNormalForm = .error (.negatedUnification u)) ↔
      unificationUnderOddNegations false x = true) ∧
    (unificationUnderOddNegations false x = false →
      ∃ y, x.negationNormalForm = .ok y) := by
  refine ⟨⟨?_, fun h => (nnf_viol_spec x).1 h⟩, (nnf_viol_spec x).2⟩
  rintro ⟨u, hu⟩
  cases hx : unificationUnderOddNegations false x with
  | true => rfl
  | false =>
    obtain ⟨y, hy⟩ := (nnf_viol_spec x).2 hx
    rw [hu] at hy
    exact Except.noConfusion hy

/-- Witness for the negated-unification claim: a unification directly under a
negation errors, while a unification not under any negation succeeds. -/
theorem negationNormalForm_negatedUnification_witness :
    (∃ u, InputAtom.negationNormalForm
        (InputAtom.negation
          (InputAtom.unification
            ⟨Symbol.named "x" 0, Expr.const (DataValue.prim 0) 0, false, 0⟩) 5) =
        Except.error (CozoError.negatedUnification u)) ∧
    (∃ y, InputAtom.negationNormalForm
        (InputAtom.conjunction
          [InputAtom.unification
            ⟨Symbol.named "x" 0, Expr.const (DataValue.prim 0) 0, false, 0⟩] 1) =
        Except.ok y) :=
  ⟨(negationNormalForm_negatedUnification_iff
      (InputAtom.negation
        (InputAtom.unification
          ⟨Symbol.named "x" 0, Expr.const (DataValue.prim 0) 0, false, 0⟩) 5)).1.mpr
      (by rfl),
   (negationNormalForm_negatedUnification_iff
      (InputAtom.conjunction
        [InputAtom.unification
          ⟨Symbol.named "x" 0, Expr.const (DataValue.prim 0) 0, false, 0⟩] 1)).2
      (by rfl)⟩

theorem disjunction_eq_mk {d : Disjunction} {x : List Conjunction}
    (h : d.inner = x) : d = ⟨x⟩ := by
  cases d
  cases h
  rfl

theorem conjToDisj_inner (d1 d2 : Disjunction) :
    (d1.conjunctiveToDisjunctiveDeMorgen d2).inner =
      d1.inner.flatMap fun l => d2.inner.map fun r =>
        Conjunction.mk (l.atoms ++ r.atoms) := by
  simp only [Disjunction.conjunctiveToDisjunctiveDeMorgen, List.map_map]
  rfl

theorem crossConcat_cross {α : Type} (A B : List (List α))
    (L : List (List (List α))) :
    crossConcat ((A.flatMap fun x => B.map fun y => x ++ y) :: L) =
      crossConcat (A :: B :: L) := by
  simp only [crossConcat, List.flatMap_assoc, List.flatMap_map,
    List.map_flatMap, List.map_map, Function.comp, List.append_assoc]
  rfl

theorem crossConcat_length {α : Type} (L : List (List (List α))) :
    (crossConcat L).length = (L.map List.length).prod := by
  induction L with
  | nil => rfl
  | cons c cs ih =>
    have hconst : (List.length ∘ fun x : List α =>
        List.map (fun y => x ++ y) (crossConcat cs)) =
        fun _ => (crossConcat cs).length := funext fun x => by
      simp [Function.comp, List.length_map]
    simp [crossConcat, List.length_flatMap, hconst, List.map_const', ih]

theorem foldl_conjToDisj_inner (ds : List Disjunction) (acc : Disjunction) :
    (ds.foldl Disjunction.conjunctiveToDisjunctiveDeMorgen acc).inner =
      (crossConcat (acc.inner.map Conjunction.atoms ::
        ds.map fun d => d.inner.map Conjunction.atoms)).map Conjunction.mk := by
  induction ds generalizing acc with
  | nil =>
    have hid : (Conjunction.mk ∘ Conjunction.atoms) = id := funext fun c => rfl
    simp [crossConcat, hid]
  | cons d ds ih =>
    rw [List.foldl_cons, ih]
    have hstep : (acc.conjunctiveToDisjunctiveDeMorgen d).inner.map
        Conjunction.atoms =
        (acc.inner.map Conjunction.atoms).flatMap fun x =>
          (d.inner.map Conjunction.atoms).map fun y => x ++ y := by
      simp only [conjToDisj_inner, List.map_flatMap, List.map_map,
        List.flatMap_map]
      rfl
    rw [hstep, crossConcat_cross]
    simp [List.map_cons]

theorem dnfConjunctionFold_eq_foldl (rest : List InputAtom) (acc : Disjunction)
    (g : TempSymbGen) (tx : SessionTx) (ds : List Disjunction)
    (g2 : TempSymbGen) (h : dnfSeq rest g tx = some (.ok (ds, g2))) :
    dnfConjunctionFold rest acc g tx =
      some (.ok (ds.foldl Disjunction.conjunctiveToDisjunctiveDeMorgen acc, g2)) := by
  induction rest generalizing acc g ds with
  | nil =>
    simp only [dnfSeq, Option.some.injEq, Except.ok.injEq, Prod.mk.injEq] at h
    rw [← h.1, ← h.2]
    rfl
  | cons a rest ih =>
    simp only [dnfSeq] at h
    cases ha : a.doDisjunctiveNormalForm g tx with
    | none => simp only [ha] at h; exact absurd h (by simp)
    | some r =>
      simp only [ha] at h
      cases r with
      | error e => exact absurd h (by simp)
      | ok p =>
        obtain ⟨d, g1⟩ := p
        simp only [] at h
        cases hs : dnfSeq rest g1 tx with
        | none => simp only [hs] at h; exact absurd h (by simp)
        | some r2 =>
          simp only [hs] at h
          cases r2 with
          | error e => exact absurd h (by simp)
          | ok p2 =>
            obtain ⟨ds1, g3⟩ := p2
            simp only [Option.some.injEq, Except.ok.injEq,
              Prod.mk.injEq] at h
            obtain ⟨hds, hg⟩ := h
            rw [hg] at hs
            rw [← hds]
            simp only [dnfConjunctionFold, ha, List.foldl_cons]
            exact ih (acc.conjunctiveToDisjunctiveDeMorgen d) g1 ds1 hs

/-- C2: on a `Conjunction` whose children's disjunctive normal forms (with
the generator threaded left to right, as `do_disjunctive_normal_form`
computes them) are `ds`, `do_disjunctive_normal_form` succeeds and returns
the flat `Disjunction` whose conjunctions are exactly the concatenations, in
child order, of one inner conjunction chosen from each child's DNF; in
particular the number of conjunctions in the output equals the product of
the numbers of disjuncts of the children.  Flatness holds by construction:
the result is a `Disjunction` of `Conjunction`s of `NormalFormAtom`s, and
`NormalFormAtom` has no conjunction or disjunction constructor. -/
theorem doDisjunctiveNormalForm_conjunction_cross (args : List InputAtom)
    (sp : Nat) (g : TempSymbGen) (tx : SessionTx) (ds : List Disjunction)
    (g2 : TempSymbGen) (hseq : dnfSeq args g tx = some (.ok (ds, g2)))
    (hne : args ≠ []) :
    InputAtom.doDisjunctiveNormalForm (.conjunction args sp) g tx =
      some (.ok (⟨(crossConcat (ds.map fun d =>
        d.inner.map Conjunction.atoms)).map Conjunction.mk⟩, g2)) ∧
    (crossConcat (ds.map fun d => d.inner.map Conjunction.atoms)).length =
      (ds.map fun d => d.inner.length).prod := by
  constructor
  · cases args with
    | nil => exact absurd rfl hne
    | cons a rest =>
      simp only [dnfSeq] at hseq
      cases ha : a.doDisjunctiveNormalForm g tx with
      | none => simp only [ha] at hseq; exact absurd hseq (by simp)
      | some r =>
        simp only [ha] at hseq
        cases r with
        | error e => exact absurd hseq (by simp)
        | ok p =>
          obtain ⟨d0, g1⟩ := p
          simp only [] at hseq
          cases hs : dnfSeq rest g1 tx with
          | none => simp only [hs] at hseq; exact absurd hseq (by simp)
          | some r2 =>
            simp only [hs] at hseq
            cases r2 with
            | error e => exact absurd hseq (by simp)
            | ok p2 =>
              obtain ⟨ds1, g3⟩ := p2
              simp only [Option.some.injEq, Except.ok.injEq,
                Prod.mk.injEq] at hseq
              obtain ⟨hds, hg⟩ := hseq
              rw [hg] at hs
              rw [← hds]
              have hfold := dnfConjunctionFold_eq_foldl rest d0 g1 tx ds1 g2 hs
              have hinner := foldl_conjToDisj_inner ds1 d0
              simp only [InputAtom.doDisjunctiveNormalForm, ha, hfold]
              rw [disjunction_eq_mk hinner]
              simp [List.map_cons]
  · rw [crossConcat_length]
    congr 1
    simp [List.map_map, Function.comp]

/-- Witness for the DNF cross-product claim on a concrete conjunction whose
two children have 1 and 2 disjuncts: the result is the flat disjunction of
the 1 × 2 = 2 concatenated conjunctions. -/
theorem doDisjunctiveNormalForm_conjunction_cross_witness :
    InputAtom.doDisjunctiveNormalForm
      (InputAtom.conjunction
        [InputAtom.rule ⟨"p", [], 0⟩,
         InputAtom.disjunction
           [InputAtom.rule ⟨"q", [], 0⟩, InputAtom.rule ⟨"s", [], 0⟩] 0] 0)
      ⟨0⟩ ⟨fun _ => none⟩ =
      some (.ok (⟨[⟨[.rule ⟨"p", [], 0⟩, .rule ⟨"q", [], 0⟩]⟩,
                   ⟨[.rule ⟨"p", [], 0⟩, .rule ⟨"s", [], 0⟩]⟩]⟩, ⟨0⟩)) ∧
    (2 : Nat) = 1 * (2 * 1) := by
  have h := doDisjunctiveNormalForm_conjunction_cross
    [InputAtom.rule ⟨"p", [], 0⟩,
     InputAtom.disjunction
       [InputAtom.rule ⟨"q", [], 0⟩, InputAtom.rule ⟨"s", [], 0⟩] 0] 0
    ⟨0⟩ ⟨fun _ => none⟩
    [⟨[⟨[.rule ⟨"p", [], 0⟩]⟩]⟩,
     ⟨[⟨[.rule ⟨"q", [], 0⟩]⟩, ⟨[.rule ⟨"s", [], 0⟩]⟩]⟩] ⟨0⟩
    (by rfl) (by simp)
  exact h

mutual

theorem dnf_total (a : InputAtom) :
    ∀ g tx, negationNormalized a = true → noEmptyConjunction a = true →
      (a.doDisjunctiveNormalForm g tx).isSome = true := by
  cases a with
  | attrTriple x =>
    intro g tx _ _
    cases h : x.normalize false g tx with
    | error e => simp [InputAtom.doDisjunctiveNormalForm, h]
    | ok r => simp [InputAtom.doDisjunctiveNormalForm, h]
  | rule x => intro g tx _ _; simp [InputAtom.doDisjunctiveNormalForm]
  | relation x => intro g tx _ _; simp [InputAtom.doDisjunctiveNormalForm]
  | predicate x =>
    intro g tx _ _
    simp [InputAtom.doDisjunctiveNormalForm, Expr.preEval]
  | unification x => intro g tx _ _; simp [InputAtom.doDisjunctiveNormalForm]
  | conjunction args sp =>
    intro g tx h1 h2
    simp only [negationNormalized] at h1
    simp only [noEmptyConjunction, Bool.and_eq_true] at h2
    cases args with
    | nil => exact absurd h2.1 (by simp)
    | cons a rest =>
      simp only [allNegationNormalized, Bool.and_eq_true] at h1
      simp only [allNoEmptyConjunction, Bool.and_eq_true] at h2
      have hhead := dnf_total a g tx h1.1 h2.2.1
      cases ha : a.doDisjunctiveNormalForm g tx with
      | none => rw [ha] at hhead; exact absurd hhead (by simp)
      | some r =>
        cases r with
        | error e => simp [InputAtom.doDisjunctiveNormalForm, ha]
        | ok p =>
          obtain ⟨d, g1⟩ := p
          have htail := dnfFold_total rest d g1 tx h1.2 h2.2.2
          simp [InputAtom.doDisjunctiveNormalForm, ha, htail]
  | disjunction args sp =>
    intro g tx h1 h2
    simp only [negationNormalized] at h1
    simp only [noEmptyConjunction] at h2
    have hp := dnfParts_total args g tx h1 h2
    cases hq : dnfDisjunctionParts args g tx with
    | none => rw [hq] at hp; exact absurd hp (by simp)
    | some r =>
      cases r with
      | error e => simp [InputAtom.doDisjunctiveNormalForm, hq]
      | ok p => simp [InputAtom.doDisjunctiveNormalForm, hq]
  | negation n sp =>
    intro g tx h1 _
    simp only [negationNormalized] at h1
    cases n with
    | attrTriple x =>
      cases h : x.normalize true g tx with
      | error e => simp [InputAtom.doDisjunctiveNormalForm, h]
      | ok r => simp [InputAtom.doDisjunctiveNormalForm, h]
    | rule x => simp [InputAtom.doDisjunctiveNormalForm]
    | relation x => simp [InputAtom.doDisjunctiveNormalForm]
    | predicate x => exact absurd h1 (by simp [isBaseNegatable])
    | unification x => exact absurd h1 (by simp [isBaseNegatable])
    | conjunction args2 sp2 => exact absurd h1 (by simp [isBaseNegatable])
    | disjunction args2 sp2 => exact absurd h1 (by simp [isBaseNegatable])
    | negation n2 sp2 => exact absurd h1 (by simp [isBaseNegatable])

theorem dnfFold_total (as : List InputAtom) :
    ∀ acc g tx, allNegationNormalized as = true →
      allNoEmptyConjunction as = true →
      (dnfConjunctionFold as acc g tx).isSome = true := by
  cases as with
  | nil => intro acc g tx _ _; simp [dnfConjunctionFold]
  | cons a rest =>
    intro acc g tx h1 h2
    simp only [allNegationNormalized, Bool.and_eq_true] at h1
    simp only [allNoEmptyConjunction, Bool.and_eq_true] at h2
    have hhead := dnf_total a g tx h1.1 h2.1
    cases ha : a.doDisjunctiveNormalForm g tx with
    | none => rw [ha] at hhead; exact absurd hhead (by simp)
    | some r =>
      cases r with
      | error e => simp [dnfConjunctionFold, ha]
      | ok p =>
        obtain ⟨d, g1⟩ := p
        have htail := dnfFold_total rest
          (acc.conjunctiveToDisjunctiveDeMorgen d) g1 tx h1.2 h2.2
        simp [dnfConjunctionFold, ha, htail]

theorem dnfParts_total (as : List InputAtom) :
    ∀ g tx, allNegationNormalized as = true →
      allNoEmptyConjunction as = true →
      (dnfDisjunctionParts as g tx).isSome = true := by
  cases as with
  | nil => intro g tx _ _; simp [dnfDisjunctionParts]
  | cons a rest =>
    intro g tx h1 h2
    simp only [allNegationNormalized, Bool.and_eq_true] at h1
    simp only [allNoEmptyConjunction, Bool.and_eq_true] at h2
    have hhead := dnf_total a g tx h1.1 h2.1
    cases ha : a.doDisjunctiveNormalForm g tx with
    | none => rw [ha] at hhead; exact absurd hhead (by simp)
    | some r =>
      cases r with
      | error e => simp [dnfDisjunctionParts, ha]
      | ok p =>
        obtain ⟨d, g1⟩ := p
        have htail := dnfParts_total rest g1 tx h1.2 h2.2
        cases hq : dnfDisjunctionParts rest g1 tx with
        | none => rw [hq] at htail; exact absurd htail (by simp)
        | some r2 =>
          cases r2 with
          | error e => simp [dnfDisjunctionParts, ha, hq]
          | ok p2 => simp [dnfDisjunctionParts, ha, hq]

end

/-- Counterexample to the claim that `do_disjunctive_normal_form` panics on
every input containing an empty `Conjunction` node: here the input contains
an empty `Conjunction` as its second child, but normalizing the first child
(an attribute triple whose attribute is unknown to the transaction) returns
the `AttrNotFound` error before the empty conjunction is ever evaluated, so
the call returns an error instead of panicking (`none` models the panic). -/
theorem doDNF_emptyConjunction_not_always_panic :
    containsEmptyConjunction
      (InputAtom.conjunction
        [InputAtom.attrTriple
          ⟨"age", .var (Symbol.named "x" 0), .var (Symbol.named "y" 0), 0⟩,
         InputAtom.conjunction [] 0] 0) = true ∧
    InputAtom.doDisjunctiveNormalForm
      (InputAtom.conjunction
        [InputAtom.attrTriple
          ⟨"age", .var (Symbol.named "x" 0), .var (Symbol.named "y" 0), 0⟩,
         InputAtom.conjunction [] 0] 0) ⟨0⟩ ⟨fun _ => none⟩ =
      some (.error (.attrNotFound ("age"))) ∧
    InputAtom.doDisjunctiveNormalForm
      (InputAtom.conjunction
        [InputAtom.attrTriple
          ⟨"age", .var (Symbol.named "x" 0), .var (Symbol.named "y" 0), 0⟩,
         InputAtom.conjunction [] 0] 0) ⟨0⟩ ⟨fun _ => none⟩ ≠ none := by
  refine ⟨rfl, rfl, ?_⟩
  intro hcontra
  rw [show InputAtom.doDisjunctiveNormalForm
      (InputAtom.conjunction
        [InputAtom.attrTriple
          ⟨"age", .var (Symbol.named "x" 0), .var (Symbol.named "y" 0), 0⟩,
         InputAtom.conjunction [] 0] 0) ⟨0⟩ ⟨fun _ => none⟩ =
      some (.error (.attrNotFound ("age"))) from rfl] at hcontra
  exact Option.noConfusion hcontra

/-- C9 (amended): evaluating a `Conjunction` with an empty child list panics
(the `.unwrap()` on the first child), in particular an empty `Conjunction` at
top level always panics; and under the precondition that the input is in
negation normal form (negations wrap only rule, relation or attribute-triple
atoms) and every `Conjunction` node has at least one child, the function
never panics (it totally returns a `Result`).  Without the negation-normal
precondition, or when an error from an earlier sibling preempts the empty
conjunction, the original claim fails. -/
theorem doDNF_panic_amended :
    (∀ sp g tx,
      InputAtom.doDisjunctiveNormalForm (.conjunction [] sp) g tx = none) ∧
    (∀ a g tx, negationNormalized a = true → noEmptyConjunction a = true →
      (a.doDisjunctiveNormalForm g tx).isSome = true) :=
  ⟨fun _ _ _ => rfl, fun a g tx h1 h2 => dnf_total a g tx h1 h2⟩

/-- Witness for the amended panic claim: a concrete normalized atom with
non-empty conjunctions on which `do_disjunctive_normal_form` does not
panic. -/
theorem doDNF_panic_amended_witness :
    (InputAtom.doDisjunctiveNormalForm
      (InputAtom.conjunction [InputAtom.rule ⟨"p", [], 0⟩] 0)
      ⟨0⟩ ⟨fun _ => none⟩).isSome = true :=
  doDNF_panic_amended.2
    (InputAtom.conjunction [InputAtom.rule ⟨"p", [], 0⟩] 0)
    ⟨0⟩ ⟨fun _ => none⟩ (by rfl) (by rfl)

theorem Symbol.sameVar_trans {s kw y : Symbol} (h1 : s.sameVar kw = true)
    (h2 : kw.sameVar y = true) : s.sameVar y = true := by
  cases s <;> cases kw <;> cases y <;> simp_all [Symbol.sameVar]

theorem seenVar_skip_dup (kw : Symbol) (seen X : List Symbol)
    (hk : seenVar kw seen = true) (y : Symbol) :
    seenVar y (seen ++ kw :: X) = seenVar y (seen ++ X) := by
  simp only [seenVar, List.any_append, List.any_cons]
  cases hy : kw.sameVar y with
  | false => simp
  | true =>
    have hs : (seen.any fun s => s.sameVar y) = true := by
      simp only [seenVar, List.any_eq_true] at hk
      obtain ⟨s, hsmem, hsv⟩ := hk
      exact List.any_eq_true.mpr ⟨s, hsmem, Symbol.sameVar_trans hsv hy⟩
    simp [hs]

theorem argOutcome_congr {t : InputTerm} {e1 e2 : List Symbol} {out : Symbol}
    {unifs : List NormalFormAtom}
    (he : ∀ y, seenVar y e1 = seenVar y e2) :
    argOutcome t e1 out unifs ↔ argOutcome t e2 out unifs := by
  cases t with
  | const v sp => exact Iff.rfl
  | var kw => simp [argOutcome, he kw]

theorem normalizeApplyArgs_spec (ts : List InputTerm) :
    ∀ seen ret acc g ret2 acc2 g2,
      normalizeApplyArgs ts seen ret acc g = (ret2, acc2, g2) →
      (∃ extra, ret2 = ret ++ extra ∧
        ∀ x ∈ extra, ∃ u, x = NormalFormAtom.unification u) ∧
      (∃ outs, acc2 = acc ++ outs ∧ outs.length = ts.length ∧
        ∀ i t, ts[i]? = some t → ∃ out, outs[i]? = some out ∧
          argOutcome t (seen ++ termVars (ts.take i)) out ret2) := by
  induction ts with
  | nil =>
    intro seen ret acc g ret2 acc2 g2 h
    simp only [normalizeApplyArgs, Prod.mk.injEq] at h
    obtain ⟨h1, h2, h3⟩ := h
    subst h1
    subst h2
    refine ⟨⟨[], by simp, by simp⟩, [], by simp, rfl, fun i t ht => ?_⟩
    simp at ht
  | cons t rest ih =>
    intro seen ret acc g ret2 acc2 g2 h
    cases t with
    | var kw =>
      cases hsv : seenVar kw seen with
      | true =>
        have hsv' : (seen.any fun s => s.sameVar kw) = true := hsv
        simp only [normalizeApplyArgs, hsv', if_true, TempSymbGen.next] at h
        obtain ⟨⟨extra, hret, hextra⟩, outs, hacc, hlen, hidx⟩ :=
          ih seen
            (ret ++ [NormalFormAtom.unification
              ⟨Symbol.temp g.counter kw.span, .binding kw none, false,
                kw.span⟩])
            (acc ++ [Symbol.temp g.counter kw.span]) ⟨g.counter + 1⟩
            ret2 acc2 g2 h
        refine ⟨⟨NormalFormAtom.unification
            ⟨Symbol.temp g.counter kw.span, .binding kw none, false,
              kw.span⟩ :: extra, ?_, ?_⟩,
          Symbol.temp g.counter kw.span :: outs, ?_, ?_, ?_⟩
        · rw [hret]; simp
        · intro x hx
          rcases List.mem_cons.mp hx with h' | h'
          · exact ⟨_, h'⟩
          · exact hextra x h'
        · rw [hacc]; simp
        · simp [hlen]
        · intro i t' ht
          cases i with
          | zero =>
            simp only [List.getElem?_cons_zero, Option.some.injEq] at ht
            subst ht
            refine ⟨Symbol.temp g.counter kw.span, by simp, ?_⟩
            simp only [List.take_zero, termVars, List.filterMap_nil,
              List.append_nil, argOutcome]
            constructor
            · intro _
              refine ⟨⟨g.counter, kw.span, rfl⟩, kw.span, ?_⟩
              rw [hret]
              simp
            · intro hcontra
              rw [hsv] at hcontra
              exact absurd hcontra (by simp)
          | succ j =>
            simp only [List.getElem?_cons_succ] at ht
            obtain ⟨out, hout, harg⟩ := hidx j t' ht
            refine ⟨out, by simpa using hout, ?_⟩
            have he : ∀ y,
                seenVar y (seen ++ termVars ((InputTerm.var kw :: rest).take
                  (j + 1))) =
                seenVar y (seen ++ termVars (rest.take j)) := by
              intro y
              simp only [List.take_succ_cons, termVars, List.filterMap_cons]
              exact seenVar_skip_dup kw seen _ hsv y
            exact (argOutcome_congr he).mpr harg
      | false =>
        have hsv' : (seen.any fun s => s.sameVar kw) = false := hsv
        simp only [normalizeApplyArgs, hsv', if_false,
          Bool.false_eq_true] at h
        obtain ⟨⟨extra, hret, hextra⟩, outs, hacc, hlen, hidx⟩ :=
          ih (seen ++ [kw]) ret (acc ++ [kw]) g ret2 acc2 g2 h
        refine ⟨⟨extra, hret, hextra⟩, kw :: outs, ?_, ?_, ?_⟩
        · rw [hacc]; simp
        · simp [hlen]
        · intro i t' ht
          cases i with
          | zero =>
            simp only [List.getElem?_cons_zero, Option.some.injEq] at ht
            subst ht
            refine ⟨kw, by simp, ?_⟩
            simp only [List.take_zero, termVars, List.filterMap_nil,
              List.append_nil, argOutcome]
            constructor
            · intro hcontra
              rw [hsv] at hcontra
              exact absurd hcontra (by simp)
            · intro _; trivial
          | succ j =>
            simp only [List.getElem?_cons_succ] at ht
            obtain ⟨out, hout, harg⟩ := hidx j t' ht
            refine ⟨out, by simpa using hout, ?_⟩
            rw [List.append_assoc, List.singleton_append] at harg
            simpa [List.take_succ_cons, termVars, List.filterMap_cons]
              using harg
    | const v sp =>
      simp only [normalizeApplyArgs, TempSymbGen.next] at h
      obtain ⟨⟨extra, hret, hextra⟩, outs, hacc, hlen, hidx⟩ :=
        ih seen
          (ret ++ [NormalFormAtom.unification
            ⟨Symbol.temp g.counter sp, .const v sp, false, sp⟩])
          (acc ++ [Symbol.temp g.counter sp]) ⟨g.counter + 1⟩
          ret2 acc2 g2 h
      refine ⟨⟨NormalFormAtom.unification
          ⟨Symbol.temp g.counter sp, .const v sp, false, sp⟩ :: extra,
          ?_, ?_⟩,
        Symbol.temp g.counter sp :: outs, ?_, ?_, ?_⟩
      · rw [hret]; simp
      · intro x hx
        rcases List.mem_cons.mp hx with h' | h'
        · exact ⟨_, h'⟩
        · exact hextra x h'
      · rw [hacc]; simp
      · simp [hlen]
      · intro i t' ht
        cases i with
        | zero =>
          simp only [List.getElem?_cons_zero, Option.some.injEq] at ht
          subst ht
          refine ⟨Symbol.temp g.counter sp, by simp, ?_⟩
          simp only [argOutcome]
          refine ⟨⟨g.counter, sp, rfl⟩, ?_⟩
          rw [hret]
          simp
        | succ j =>
          simp only [List.getElem?_cons_succ] at ht
          obtain ⟨out, hout, harg⟩ := hidx j t' ht
          refine ⟨out, by simpa using hout, ?_⟩
          simpa [List.take_succ_cons, termVars, List.filterMap_cons]
            using harg

theorem ruleNormalize_spec :
    ∀ (self : InputRuleApplyAtom) (isNeg : Bool) (g : TempSymbGen)
      (d : Disjunction) (g2 : TempSymbGen),
      self.normalize isNeg g = (d, g2) →
      ∃ unifs outs,
        d = Disjunction.conj (unifs ++
          [if isNeg then NormalFormAtom.negatedRule ⟨self.name, outs, self.span⟩
           else NormalFormAtom.rule ⟨self.name, outs, self.span⟩]) ∧
        (∀ x ∈ unifs, ∃ u, x = NormalFormAtom.unification u) ∧
        outs.length = self.args.length ∧
        (∀ i t, self.args[i]? = some t → ∃ out, outs[i]? = some out ∧
          argOutcome t (termVars (self.args.take i)) out unifs) := by
  intro self isNeg g d g2 h
  cases hl : normalizeApplyArgs self.args [] [] [] g with
  | mk ret2 p =>
    obtain ⟨acc2, g3⟩ := p
    obtain ⟨⟨extra, hret, hextra⟩, outs, hacc, hlen, hidx⟩ :=
      normalizeApplyArgs_spec self.args [] [] [] g ret2 acc2 g3 hl
    simp only [List.nil_append] at hret hacc
    simp only [InputRuleApplyAtom.normalize, hl, Prod.mk.injEq] at h
    obtain ⟨hd, hg⟩ := h
    subst hd
    refine ⟨ret2, acc2, rfl, ?_, ?_, fun i t ht => ?_⟩
    · rw [hret]; exact hextra
    · rw [hacc]; exact hlen
    · obtain ⟨out, hout, harg⟩ := hidx i t ht
      rw [hacc]
      exact ⟨out, hout, by simpa using harg⟩

theorem relationNormalize_spec :
    ∀ (self : InputRelationApplyAtom) (isNeg : Bool) (g : TempSymbGen)
      (d : Disjunction) (g2 : TempSymbGen),
      self.normalize isNeg g = (d, g2) →
      ∃ unifs outs,
        d = Disjunction.conj (unifs ++
          [if isNeg then
            NormalFormAtom.negatedRelation ⟨self.name, outs, self.span⟩
           else NormalFormAtom.relation ⟨self.name, outs, self.span⟩]) ∧
        (∀ x ∈ unifs, ∃ u, x = NormalFormAtom.unification u) ∧
        outs.length = self.args.length ∧
        (∀ i t, self.args[i]? = some t → ∃ out, outs[i]? = some out ∧
          argOutcome t (termVars (self.args.take i)) out unifs) := by
  intro self isNeg g d g2 h
  cases hl : normalizeApplyArgs self.args [] [] [] g with
  | mk ret2 p =>
    obtain ⟨acc2, g3⟩ := p
    obtain ⟨⟨extra, hret, hextra⟩, outs, hacc, hlen, hidx⟩ :=
      normalizeApplyArgs_spec self.args [] [] [] g ret2 acc2 g3 hl
    simp only [List.nil_append] at hret hacc
    simp only [InputRelationApplyAtom.normalize, hl, Prod.mk.injEq] at h
    obtain ⟨hd, hg⟩ := h
    subst hd
    refine ⟨ret2, acc2, rfl, ?_, ?_, fun i t ht => ?_⟩
    · rw [hret]; exact hextra
    · rw [hacc]; exact hlen
    · obtain ⟨out, hout, harg⟩ := hidx i t ht
      rw [hacc]
      exact ⟨out, hout, by simpa using harg⟩

theorem attrTripleNormalize_spec :
    ∀ (self : InputAttrTripleAtom) (isNeg : Bool) (g : TempSymbGen)
      (tx : SessionTx) (d : Disjunction) (g2 : TempSymbGen),
      self.normalize isNeg g tx = .ok (d, g2) →
      ∃ attr unifs ent val asp,
        tx.attrByName self.attr = some attr ∧
        d = Disjunction.conj (unifs ++
          [if isNeg then NormalFormAtom.negatedAttrTriple ⟨attr, ent, val, asp⟩
           else NormalFormAtom.attrTriple ⟨attr, ent, val, asp⟩]) ∧
        (∀ x ∈ unifs, ∃ u, x = NormalFormAtom.unification u) ∧
        argOutcome self.entity [] ent unifs ∧
        argOutcome self.value (termVars [self.entity]) val unifs := by
  intro self isNeg g tx d g2 h
  obtain ⟨aname, ent_t, val_t, sp⟩ := self
  cases ha : tx.attrByName aname with
  | none => simp [InputAttrTripleAtom.normalize, ha] at h
  | some attr =>
    cases ent_t with
    | var ekw =>
      cases val_t with
      | var vkw =>
        cases hsv : ekw.sameVar vkw with
        | true =>
          simp only [InputAttrTripleAtom.normalize, ha, hsv,
            TempSymbGen.next, if_true, Except.ok.injEq, Prod.mk.injEq] at h
          obtain ⟨hd, hg⟩ := h
          subst hd
          refine ⟨attr,
            [NormalFormAtom.unification
              ⟨Symbol.temp g.counter vkw.span, .binding vkw none, false, sp⟩],
            ekw, Symbol.temp g.counter vkw.span, vkw.span, rfl, rfl,
            by simp, ?_, ?_⟩
          · simp [argOutcome, seenVar]
          · simp only [argOutcome, termVars, List.filterMap_cons,
              List.filterMap_nil]
            constructor
            · intro _
              exact ⟨⟨g.counter, vkw.span, rfl⟩, sp, by simp⟩
            · intro hcontra
              simp [seenVar, hsv] at hcontra
        | false =>
          simp only [InputAttrTripleAtom.normalize, ha, hsv,
            TempSymbGen.next, if_false, Bool.false_eq_true,
            Except.ok.injEq, Prod.mk.injEq] at h
          obtain ⟨hd, hg⟩ := h
          subst hd
          refine ⟨attr, [], ekw, vkw, sp, rfl, rfl, by simp, ?_, ?_⟩
          · simp [argOutcome, seenVar]
          · simp only [argOutcome, termVars, List.filterMap_cons,
              List.filterMap_nil]
            constructor
            · intro hcontra
              simp [seenVar, hsv] at hcontra
            · intro _; trivial
      | const val2 secondSpan =>
        simp only [InputAttrTripleAtom.normalize, ha, TempSymbGen.next,
          Except.ok.injEq, Prod.mk.injEq] at h
        obtain ⟨hd, hg⟩ := h
        subst hd
        refine ⟨attr,
          [NormalFormAtom.unification
            ⟨Symbol.temp g.counter secondSpan, .const val2 secondSpan, false,
              secondSpan⟩],
          ekw, Symbol.temp g.counter secondSpan, sp, rfl, rfl, by simp, ?_, ?_⟩
        · simp [argOutcome, seenVar]
        · simp only [argOutcome]
          exact ⟨⟨g.counter, secondSpan, rfl⟩, by simp⟩
    | const eid firstSpan =>
      cases val_t with
      | var vkw =>
        simp only [InputAttrTripleAtom.normalize, ha, TempSymbGen.next,
          Except.ok.injEq, Prod.mk.injEq] at h
        obtain ⟨hd, hg⟩ := h
        subst hd
        refine ⟨attr,
          [NormalFormAtom.unification
            ⟨Symbol.temp g.counter vkw.span, .const eid firstSpan, false,
              firstSpan⟩],
          Symbol.temp g.counter vkw.span, vkw, sp, rfl, rfl, by simp, ?_, ?_⟩
        · simp only [argOutcome]
          exact ⟨⟨g.counter, vkw.span, rfl⟩, by simp⟩
        · simp [argOutcome, seenVar, termVars]
      | const val2 secondSpan =>
        simp only [InputAttrTripleAtom.normalize, ha, TempSymbGen.next,
          Except.ok.injEq, Prod.mk.injEq] at h
        obtain ⟨hd, hg⟩ := h
        subst hd
        refine ⟨attr,
          [NormalFormAtom.unification
            ⟨Symbol.temp g.counter firstSpan, .const eid firstSpan, false,
              firstSpan⟩,
           NormalFormAtom.unification
            ⟨Symbol.temp (g.counter + 1) secondSpan, .const val2 secondSpan,
              false, secondSpan⟩],
          Symbol.temp g.counter firstSpan,
          Symbol.temp (g.counter + 1) secondSpan, sp, rfl, rfl, by simp,
          ?_, ?_⟩
        · simp only [argOutcome]
          exact ⟨⟨g.counter, firstSpan, rfl⟩, by simp⟩
        · simp only [argOutcome]
          exact ⟨⟨g.counter + 1, secondSpan, rfl⟩, by simp⟩

/-- C3: for every rule-apply, relation-apply and attribute-triple atom
normalized during DNF conversion, every constant argument is replaced by a
fresh (generator-produced) variable bound by a `Unification` of that variable
to the constant, every repeated occurrence of a variable within the same atom
is replaced by a fresh variable bound by a `Unification` of the fresh
variable to the original one, each such `Unification` is placed before the
atom in the resulting conjunction, and the atom has the same number of
argument positions as the input (for the triple, the entity and value
positions). -/
theorem normalize_hoists_constants_and_duplicates :
    (∀ (self : InputRuleApplyAtom) (isNeg : Bool) (g : TempSymbGen)
      (d : Disjunction) (g2 : TempSymbGen),
      self.normalize isNeg g = (d, g2) →
      ∃ unifs outs,
        d = Disjunction.conj (unifs ++
          [if isNeg then NormalFormAtom.negatedRule ⟨self.name, outs, self.span⟩
           else NormalFormAtom.rule ⟨self.name, outs, self.span⟩]) ∧
        (∀ x ∈ unifs, ∃ u, x = NormalFormAtom.unification u) ∧
        outs.length = self.args.length ∧
        (∀ i t, self.args[i]? = some t → ∃ out, outs[i]? = some out ∧
          argOutcome t (termVars (self.args.take i)) out unifs)) ∧
    (∀ (self : InputRelationApplyAtom) (isNeg : Bool) (g : TempSymbGen)
      (d : Disjunction) (g2 : TempSymbGen),
      self.normalize isNeg g = (d, g2) →
      ∃ unifs outs,
        d = Disjunction.conj (unifs ++
          [if isNeg then
            NormalFormAtom.negatedRelation ⟨self.name, outs, self.span⟩
           else NormalFormAtom.relation ⟨self.name, outs, self.span⟩]) ∧
        (∀ x ∈ unifs, ∃ u, x = NormalFormAtom.unification u) ∧
        outs.length = self.args.length ∧
        (∀ i t, self.args[i]? = some t → ∃ out, outs[i]? = some out ∧
          argOutcome t (termVars (self.args.take i)) out unifs)) ∧
    (∀ (self : InputAttrTripleAtom) (isNeg : Bool) (g : TempSymbGen)
      (tx : SessionTx) (d : Disjunction) (g2 : TempSymbGen),
      self.normalize isNeg g tx = .ok (d, g2) →
      ∃ attr unifs ent val asp,
        tx.attrByName self.attr = some attr ∧
        d = Disjunction.conj (unifs ++
          [if isNeg then NormalFormAtom.negatedAttrTriple ⟨attr, ent, val, asp⟩
           else NormalFormAtom.attrTriple ⟨attr, ent, val, asp⟩]) ∧
        (∀ x ∈ unifs, ∃ u, x = NormalFormAtom.unification u) ∧
        argOutcome self.entity [] ent unifs ∧
        argOutcome self.value (termVars [self.entity]) val unifs) :=
  ⟨ruleNormalize_spec, relationNormalize_spec, attrTripleNormalize_spec⟩

/-- Witness for the normalization claim on a concrete rule atom with a
repeated variable: `r(x, x)` normalizes to a fresh symbol unified with `x`
before the rule atom, whose argument count is unchanged. -/
theorem normalize_hoists_constants_and_duplicates_witness :
    ∃ unifs outs,
      Disjunction.conj
        [NormalFormAtom.unification
          ⟨Symbol.temp 0 1, Expr.binding (Symbol.named "x" 1) none, false, 1⟩,
         NormalFormAtom.rule
          ⟨"r", [Symbol.named "x" 1, Symbol.temp 0 1], 9⟩] =
        Disjunction.conj (unifs ++
          [if false then NormalFormAtom.negatedRule ⟨"r", outs, 9⟩
           else NormalFormAtom.rule ⟨"r", outs, 9⟩]) ∧
      (∀ x ∈ unifs, ∃ u, x = NormalFormAtom.unification u) ∧
      outs.length = 2 ∧
      (∀ i t, ([InputTerm.var (Symbol.named "x" 1),
          InputTerm.var (Symbol.named "x" 1)] : List InputTerm)[i]? = some t →
        ∃ out, outs[i]? = some out ∧
          argOutcome t
            (termVars (([InputTerm.var (Symbol.named "x" 1),
              InputTerm.var (Symbol.named "x" 1)] : List InputTerm).take i))
            out unifs) :=
  normalize_hoists_constants_and_duplicates.1
    ⟨"r", [InputTerm.var (Symbol.named "x" 1),
           InputTerm.var (Symbol.named "x" 1)], 9⟩ false ⟨0⟩
    (Disjunction.conj
      [NormalFormAtom.unification
        ⟨Symbol.temp 0 1, Expr.binding (Symbol.named "x" 1) none, false, 1⟩,
       NormalFormAtom.rule
        ⟨"r", [Symbol.named "x" 1, Symbol.temp 0 1], 9⟩]) ⟨1⟩ (by rfl)

theorem lookupQuery_removeQuery_self (id : Nat)
    (m : List (Nat × RunningQueryHandle)) :
    lookupQuery id (removeQuery id m) = none := by
  induction m with
  | nil => rfl
  | cons p rest ih =>
    by_cases hp : p.1 = id
    · have hstep : removeQuery id (p :: rest) = removeQuery id rest := by
        simp [removeQuery, hp]
      rw [hstep]
      exact ih
    · have hstep : removeQuery id (p :: rest) = p :: removeQuery id rest := by
        simp [removeQuery, hp]
      rw [hstep]
      have hfind : lookupQuery id (p :: removeQuery id rest) =
          lookupQuery id (removeQuery id rest) := by
        simp [lookupQuery, List.find?_cons, hp]
      rw [hfind]
      exact ih

theorem lookupQuery_insertQuery_self (id : Nat) (h : RunningQueryHandle)
    (m : List (Nat × RunningQueryHandle)) :
    lookupQuery id (insertQuery id h m) = some h := by
  simp [lookupQuery, insertQuery]

/-- C7: dropping the scoped cleanup guard removes the guard's query id from
the running-query registry and stores `true` into the removed handle's poison
flag; composed with the registration `run_query` performs before creating the
guard, this means that after `run_query` returns the query is no longer
registered and the handle it registered is poisoned, unconditionally. -/
theorem runningQueryCleanup_drop_spec :
    (∀ (st : RuntimeState) (id : Nat) (h : RunningQueryHandle),
      lookupQuery id st.runningQueries = some h →
      lookupQuery id (runningQueryCleanupDrop id st).runningQueries = none ∧
      (runningQueryCleanupDrop id st).poisonFlags h.poison = true) ∧
    (∀ (st : RuntimeState) (id : Nat) (h : RunningQueryHandle),
      lookupQuery id (runQueryRegistration st id h).runningQueries = none ∧
      (runQueryRegistration st id h).poisonFlags h.poison = true) := by
  constructor
  · intro st id h hl
    simp only [runningQueryCleanupDrop, hl]
    exact ⟨lookupQuery_removeQuery_self id _, by simp [setPoison]⟩
  · intro st id h
    have hl : lookupQuery id
        (registerRunningQuery id h st).runningQueries = some h :=
      lookupQuery_insertQuery_self id h st.runningQueries
    simp only [runQueryRegistration, runningQueryCleanupDrop, hl]
    exact ⟨lookupQuery_removeQuery_self id _, by simp [setPoison]⟩

/-- Witness for the cleanup-guard claim: dropping the guard for a registered
query id 3 with poison flag 7 deregisters it and sets flag 7. -/
theorem runningQueryCleanup_drop_witness :
    lookupQuery 3 (runningQueryCleanupDrop 3
      ⟨[(3, ⟨0, 7⟩)], fun _ => false, [], []⟩).runningQueries = none ∧
    (runningQueryCleanupDrop 3
      ⟨[(3, ⟨0, 7⟩)], fun _ => false, [], []⟩).poisonFlags 7 = true :=
  runningQueryCleanup_drop_spec.1
    ⟨[(3, ⟨0, 7⟩)], fun _ => false, [], []⟩ 3 ⟨0, 7⟩ (by rfl)

/-- C8: `run_sys_op` with `KillRunning(id)` returns status `NOT_FOUND` and
leaves the state unchanged when no running query with that id is registered;
when one is, it returns `KILLING`, sets that query's poison flag and keeps
its registry entry; and every status string a sys op returns is one of `OK`,
`NOT_FOUND`, `KILLING`. -/
theorem runSysOp_killRunning_spec :
    (∀ (st : RuntimeState) (id : Nat),
      lookupQuery id st.runningQueries = none →
      runSysOp st (.killRunning id) = (st, .status ("NOT_FOUND"))) ∧
    (∀ (st : RuntimeState) (id : Nat) (h : RunningQueryHandle),
      lookupQuery id st.runningQueries = some h →
      runSysOp st (.killRunning id) =
        ({ st with poisonFlags := setPoison st.poisonFlags h.poison },
          .status ("KILLING")) ∧
      (runSysOp st (.killRunning id)).1.runningQueries =
        st.runningQueries ∧
      setPoison st.poisonFlags h.poison h.poison = true) ∧
    (∀ (st : RuntimeState) (op : SysOp) (st2 : RuntimeState) (s : String),
      runSysOp st op = (st2, .status s) →
      s = "OK" ∨ s = "NOT_FOUND" ∨ s = "KILLING") := by
  refine ⟨?_, ?_, ?_⟩
  · intro st id hl
    simp [runSysOp, hl]
  · intro st id h hl
    exact ⟨by simp [runSysOp, hl], by simp [runSysOp, hl],
      by simp [setPoison]⟩
  · intro st op st2 s hr
    cases op with
    | compact opts =>
      simp only [runSysOp, Prod.mk.injEq, SysOpResult.status.injEq] at hr
      exact Or.inl hr.2.symm
    | listSchema => simp [runSysOp] at hr
    | listRelations => simp [runSysOp] at hr
    | removeRelations rs =>
      simp only [runSysOp, Prod.mk.injEq, SysOpResult.status.injEq] at hr
      exact Or.inl hr.2.symm
    | listRunning => simp [runSysOp] at hr
    | killRunning id =>
      cases hl : lookupQuery id st.runningQueries with
      | none =>
        simp only [runSysOp, hl, Prod.mk.injEq,
          SysOpResult.status.injEq] at hr
        exact Or.inr (Or.inl hr.2.symm)
      | some h =>
        simp only [runSysOp, hl, Prod.mk.injEq,
          SysOpResult.status.injEq] at hr
        exact Or.inr (Or.inr hr.2.symm)

/-- Witness for the kill-running claim: killing an unregistered id answers
`NOT_FOUND` with the state untouched, and killing a registered one answers
`KILLING` with its flag set. -/
theorem runSysOp_killRunning_witness :
    runSysOp ⟨[], fun _ => false, [], []⟩ (.killRunning 5) =
      (⟨[], fun _ => false, [], []⟩, .status ("NOT_FOUND")) ∧
    runSysOp ⟨[(5, ⟨0, 2⟩)], fun _ => false, [], []⟩ (.killRunning 5) =
      (⟨[(5, ⟨0, 2⟩)], setPoison (fun _ => false) 2, [], []⟩,
        .status ("KILLING")) :=
  ⟨runSysOp_killRunning_spec.1 ⟨[], fun _ => false, [], []⟩ 5 (by rfl),
   (runSysOp_killRunning_spec.2.1
     ⟨[(5, ⟨0, 2⟩)], fun _ => false, [], []⟩ 5 ⟨0, 2⟩ (by rfl)).1⟩

/-- C6: the view gate of `run_query` fails — before the elided pipeline
(normalization, compilation, evaluation, view emission) is ever consulted and
with the state untouched — exactly when the op is `Create` and the view
exists, or the op is `Put` or `Retract` and the view does not exist;
`Rederive` imposes no precondition. -/
theorem runQuery_view_gate_spec :
    ∀ (st : RuntimeState) (meta : ViewRelMetadata) (op : ViewOp)
      (pipeline : RuntimeState → Except String (RuntimeState × List Json)),
      (op = ViewOp.create → viewExists st meta.name = true →
        runQueryModel st ⟨⟨some (meta, op)⟩⟩ pipeline =
          .error ("view exists but is required not to be")) ∧
      ((op = ViewOp.put ∨ op = ViewOp.retract) →
        viewExists st meta.name = false →
        runQueryModel st ⟨⟨some (meta, op)⟩⟩ pipeline =
          .error ("view does not exist but is required to be")) ∧
      (op = ViewOp.rederive →
        runQueryModel st ⟨⟨some (meta, op)⟩⟩ pipeline = pipeline st) ∧
      ((op = ViewOp.create → viewExists st meta.name = false) →
        ((op = ViewOp.put ∨ op = ViewOp.retract) →
          viewExists st meta.name = true) →
        runQueryModel st ⟨⟨some (meta, op)⟩⟩ pipeline = pipeline st) := by
  intro st meta op pipeline
  refine ⟨?_, ?_, ?_, ?_⟩
  · rintro rfl hex
    simp [runQueryModel, runQueryViewGate, hex]
  · rintro (rfl | rfl) hex <;>
      simp [runQueryModel, runQueryViewGate, hex]
  · rintro rfl
    simp [runQueryModel, runQueryViewGate]
  · intro h1 h2
    cases op with
    | create => simp [runQueryModel, runQueryViewGate, h1 rfl]
    | rederive => simp [runQueryModel, runQueryViewGate]
    | put => simp [runQueryModel, runQueryViewGate, h2 (Or.inl rfl)]
    | retract => simp [runQueryModel, runQueryViewGate, h2 (Or.inr rfl)]

/-- Witness for the view-gate claim: creating a view that already exists
fails with the gate error, for an arbitrary concrete pipeline. -/
theorem runQuery_view_gate_witness :
    runQueryModel ⟨[], fun _ => false, [("v", 2)], []⟩
      ⟨⟨some (⟨"v", 2⟩, ViewOp.create)⟩⟩ (fun st => .ok (st, [])) =
      .error ("view exists but is required not to be") :=
  (runQuery_view_gate_spec ⟨[], fun _ => false, [("v", 2)], []⟩ ⟨"v", 2⟩
    ViewOp.create (fun st => .ok (st, []))).1 rfl (by rfl)

theorem constRuleRows_some_spec (rows : List DataValue) :
    ∀ (l : Nat) (acc out : List Tuple),
      constRuleRows rows (some l) acc = .ok out ↔
      ∃ ts, rows = ts.map DataValue.list ∧ (∀ t ∈ ts, t.length = l) ∧
        out = acc ++ ts := by
  induction rows with
  | nil =>
    intro l acc out
    constructor
    · intro h
      simp only [constRuleRows, Except.ok.injEq] at h
      exact ⟨[], by simp, by simp, by simp [h]⟩
    · rintro ⟨ts, hts, _, hout⟩
      obtain rfl : ts = [] := by
        cases ts with
        | nil => rfl
        | cons a b => exact absurd hts (by simp)
      simp only [List.append_nil] at hout
      simp [constRuleRows, hout]
  | cons r rest ih =>
    intro l acc out
    cases r with
    | prim n =>
      constructor
      · intro h
        simp [constRuleRows] at h
      · rintro ⟨ts, hts, -, -⟩
        cases ts with
        | nil => exact absurd hts (by simp)
        | cons a b =>
          simp only [List.map_cons, List.cons.injEq] at hts
          exact DataValue.noConfusion hts.1
    | list tpl =>
      by_cases hl : l = tpl.length
      · constructor
        · intro h
          simp only [constRuleRows, hl, if_true] at h
          obtain ⟨ts, hts, hlen, hout⟩ := (ih tpl.length (acc ++ [tpl]) out).mp
            (by simpa [hl] using h)
          refine ⟨tpl :: ts, by simp [hts], ?_, by simp [hout]⟩
          intro t ht
          rcases List.mem_cons.mp ht with rfl | ht
          · exact hl.symm
          · rw [hlen t ht, hl]
        · rintro ⟨ts, hts, hlen, hout⟩
          cases ts with
          | nil => exact absurd hts (by simp)
          | cons t ts2 =>
            simp only [List.map_cons, List.cons.injEq] at hts
            obtain ⟨ht1, ht2⟩ := hts
            obtain rfl : tpl = t := DataValue.list.inj ht1
            simp only [constRuleRows, hl, if_true]
            refine (ih tpl.length (acc ++ [tpl]) out).mpr ⟨ts2, ht2, ?_, ?_⟩
            · intro t2 h2
              rw [hlen t2 (List.mem_cons_of_mem _ h2), hl]
            · simpa using hout
      · constructor
        · intro h
          simp [constRuleRows, hl] at h
        · rintro ⟨ts, hts, hlen, hout⟩
          cases ts with
          | nil => exact absurd hts (by simp)
          | cons t ts2 =>
            simp only [List.map_cons, List.cons.injEq] at hts
            obtain rfl : tpl = t := DataValue.list.inj hts.1
            exact absurd (hlen tpl (List.mem_cons_self _ _)).symm hl

theorem constRuleRows_none_spec (rows : List DataValue)
    (acc out : List Tuple) :
    constRuleRows rows none acc = .ok out ↔
      ∃ ts, rows = ts.map DataValue.list ∧
        (∀ t1 ∈ ts, ∀ t2 ∈ ts, t1.length = t2.length) ∧
        out = acc ++ ts := by
  cases rows with
  | nil =>
    constructor
    · intro h
      simp only [constRuleRows, Except.ok.injEq] at h
      exact ⟨[], by simp, by simp, by simp [h]⟩
    · rintro ⟨ts, hts, -, hout⟩
      obtain rfl : ts = [] := by
        cases ts with
        | nil => rfl
        | cons a b => exact absurd hts (by simp)
      simp only [List.append_nil] at hout
      simp [constRuleRows, hout]
  | cons r rest =>
    cases r with
    | prim n =>
      constructor
      · intro h
        simp [constRuleRows] at h
      · rintro ⟨ts, hts, -, -⟩
        cases ts with
        | nil => exact absurd hts (by simp)
        | cons a b =>
          simp only [List.map_cons, List.cons.injEq] at hts
          exact DataValue.noConfusion hts.1
    | list tpl =>
      constructor
      · intro h
        simp only [constRuleRows] at h
        obtain ⟨ts, hts, hlen, hout⟩ :=
          (constRuleRows_some_spec rest tpl.length (acc ++ [tpl]) out).mp h
        refine ⟨tpl :: ts, by simp [hts], ?_, by simp [hout]⟩
        intro t1 h1 t2 h2
        rcases List.mem_cons.mp h1 with h1e | h1m <;>
          rcases List.mem_cons.mp h2 with h2e | h2m
        · rw [h1e, h2e]
        · rw [h1e]; exact (hlen t2 h2m).symm
        · rw [h2e]; exact hlen t1 h1m
        · rw [hlen t1 h1m, hlen t2 h2m]
      · rintro ⟨ts, hts, hlen, hout⟩
        cases ts with
        | nil => exact absurd hts (by simp)
        | cons t ts2 =>
          simp only [List.map_cons, List.cons.injEq] at hts
          obtain rfl : tpl = t := DataValue.list.inj hts.1
          simp only [constRuleRows]
          refine (constRuleRows_some_spec rest tpl.length (acc ++ [tpl])
            out).mpr ⟨ts2, hts.2, ?_, by simpa using hout⟩
          intro t2 h2
          exact hlen t2 (List.mem_cons_of_mem _ h2) tpl
            (List.mem_cons_self _ _)

/-- C10: the const-rule arm of `parse_query` (taking the already-evaluated
body as input, since the expression builder is an elided stub) accepts
exactly when the body is a non-empty list, every row is a list, all rows have
the same length and the name is not yet defined as a const rule; and on
acceptance the tuples stored under the name are exactly the rows of the list
in their given order. -/
theorem parseConstRule_spec (name : String) (data : DataValue)
    (m m2 : ConstRules) :
    parseConstRule name data m = .ok m2 ↔
      ∃ rows tuples, data = DataValue.list rows ∧ rows ≠ [] ∧
        constRulesLookup name m = none ∧
        rows = tuples.map DataValue.list ∧
        (∀ t1 ∈ tuples, ∀ t2 ∈ tuples, t1.length = t2.length) ∧
        m2 = m ++ [(name, tuples)] := by
  cases data with
  | prim n =>
    simp [parseConstRule]
  | list rows =>
    cases hrows : rows with
    | nil =>
      simp [parseConstRule]
    | cons r rest =>
      simp only [parseConstRule, List.isEmpty_cons, if_false,
        Bool.false_eq_true]
      cases hlk : constRulesLookup name m with
      | some ts =>
        constructor
        · intro h
          simp at h
        · rintro ⟨rows2, tuples, hdata, -, hlk2, -⟩
          exact Option.noConfusion hlk2
      | none =>
        cases hrr : constRuleRows (r :: rest) none [] with
        | error e =>
          constructor
          · intro h
            simp at h
          · rintro ⟨rows2, tuples, hdata, -, -, hmap, hlen, -⟩
            obtain rfl : rows2 = r :: rest := (DataValue.list.inj hdata).symm
            have : constRuleRows (r :: rest) none [] = .ok ([] ++ tuples) :=
              (constRuleRows_none_spec (r :: rest) [] ([] ++ tuples)).mpr
                ⟨tuples, hmap, hlen, rfl⟩
            rw [hrr] at this
            exact Except.noConfusion this
        | ok tuples0 =>
          obtain ⟨ts, hmap, hlen, hout⟩ :=
            (constRuleRows_none_spec (r :: rest) [] tuples0).mp hrr
          simp only [List.nil_append] at hout
          constructor
          · intro h
            simp only [Except.ok.injEq] at h
            exact ⟨r :: rest, ts, rfl, by simp, rfl, hmap, hlen, by
              rw [← h, hout]⟩
          · rintro ⟨rows2, tuples, hdata, -, -, hmap2, hlen2, hm2⟩
            obtain rfl : rows2 = r :: rest := (DataValue.list.inj hdata).symm
            have heq : constRuleRows (r :: rest) none [] =
                .ok ([] ++ tuples) :=
              (constRuleRows_none_spec (r :: rest) [] ([] ++ tuples)).mpr
                ⟨tuples, hmap2, hlen2, rfl⟩
            rw [hrr] at heq
            simp only [List.nil_append, Except.ok.injEq] at heq
            rw [hm2, heq]

/-- Witness for the const-rule claim: a singleton list of one row is accepted
and stored as-is. -/
theorem parseConstRule_spec_witness :
    parseConstRule "c" (DataValue.list [DataValue.list [DataValue.prim 1]])
      [] = .ok [("c", [[DataValue.prim 1]])] :=
  (parseConstRule_spec "c"
    (DataValue.list [DataValue.list [DataValue.prim 1]]) []
    [("c", [[DataValue.prim 1]])]).mpr
    ⟨[DataValue.list [DataValue.prim 1]], [[DataValue.prim 1]], rfl,
     by simp, rfl, rfl, by simp, rfl⟩

end CozoProof
